import Mathlib

/-!
# Verification of the zeekscript formatter core

A shallow embedding, in Lean 4, of the core of `zeekscript` — a
pretty-printer for Zeek scripts — together with proofs about it.

The embedding follows the Python sources:

* `zeekscript/output.py`  — the `OutputStream` line buffer, its line-wrap
  decision logic, trailing-whitespace stripping and finalization;
* `zeekscript/script.py`  — `Script.parse`, `Script.has_error`,
  `Script.get_error`, the CST-anchoring pass of `Script._clone_tree`, and
  the assertion guards of the public accessors;
* `zeekscript/node.py`    — `Node.__eq__`, `Node.traverse`,
  `Node.script_range`, and the node-classification helpers;
* `zeekscript/formatter.py` — `Formatter` (default), `NullFormatter`,
  `ErrorFormatter` and `NlFormatter`, plus the formatter lookup for the
  node types exercised here.

Bytes are modelled as `Nat` (one entry per byte); the platform newline
`Formatter.NL` is the single byte 10 (`os.linesep` on Linux). Python's
`bytes.strip` family strips the ASCII whitespace bytes 9–13 and 32.
The external tree-sitter parser is out of scope (as in the spec): parse
trees are inputs of the embedding.
-/

set_option autoImplicit false

namespace Zeekscript

/-- `str.endswith(suffix)`, via character lists (Lean's own
`String.endsWith` is equivalent but does not reduce in the kernel). -/
def endsWithStr (s suffix : String) : Bool :=
  suffix.data.isSuffixOf s.data

/-- The newline byte: `Formatter.NL = os.linesep.encode("UTF-8")` on Linux. -/
def nlByte : Nat := 10

/-- The bytes Python's `bytes.strip()` removes: `\t\n\v\f\r` and space. -/
def isSpaceByte (b : Nat) : Bool :=
  b == 9 || b == 10 || b == 11 || b == 12 || b == 13 || b == 32

/-- `bytes.lstrip()`: drop leading ASCII whitespace. -/
def lstripBytes (l : List Nat) : List Nat :=
  l.dropWhile isSpaceByte

/-- `bytes.rstrip()`: drop trailing ASCII whitespace. -/
def rstripBytes (l : List Nat) : List Nat :=
  (l.reverse.dropWhile isSpaceByte).reverse

/-- `bytes.strip()`: drop whitespace on both ends.  The stream only ever
tests the result for emptiness (`if not data.strip()`). -/
def stripBytes (l : List Nat) : List Nat :=
  lstripBytes (rstripBytes l)

/-- Truthiness of `data.strip()`: `True` when some non-whitespace byte
remains. -/
def hasInk (l : List Nat) : Bool :=
  !(stripBytes l).isEmpty

/-- Worker for `splitlinesKeep`, carrying the line built so far. -/
def splitlinesKeepGo : List Nat → List Nat → List (List Nat)
  | [], acc => if acc.isEmpty then [] else [acc]
  | 13 :: 10 :: rest, acc => (acc ++ [13, 10]) :: splitlinesKeepGo rest []
  | 13 :: rest, acc => (acc ++ [13]) :: splitlinesKeepGo rest []
  | 10 :: rest, acc => (acc ++ [10]) :: splitlinesKeepGo rest []
  | b :: rest, acc => splitlinesKeepGo rest (acc ++ [b])

/-- `bytes.splitlines(keepends=True)` restricted to the newline byte 10
and carriage return 13 (the terminators Python recognizes for bytes),
keeping the line endings on the chunks. -/
def splitlinesKeep (l : List Nat) : List (List Nat) :=
  splitlinesKeepGo l []

/-- Worker for `splitOnNl`. -/
def splitOnNlGo : List Nat → List Nat → List (List Nat)
  | [], acc => [acc]
  | 10 :: rest, acc => acc :: splitOnNlGo rest []
  | b :: rest, acc => splitOnNlGo rest (acc ++ [b])

/-- `bytes.split(NL)`: split on the newline byte, endings removed.  An
empty input yields one empty chunk, as in Python. -/
def splitOnNl (l : List Nat) : List (List Nat) :=
  splitOnNlGo l []

/-- `data.endswith(Formatter.NL)`. -/
def endsWithNl (l : List Nat) : Bool :=
  l.getLast? == some nlByte

/-- `data.startswith(self.NL)`. -/
def startsWithNl (l : List Nat) : Bool :=
  l.head? == some nlByte

/-! ## Layout hints  (`formatter.py`, class `Hint`)

`Hint` is a flag enum; a formatter's hint set is a combination of the
flags, modelled here as one Boolean per flag. -/

/-- The hint flags of `formatter.py`'s `Hint` enum, one Boolean each. -/
structure Hints where
  goodAfterLb : Bool := false
  noLbBefore : Bool := false
  noLbAfter : Bool := false
  zeroWidth : Bool := false
  complexBlock : Bool := false
  deriving Repr, DecidableEq

/-- `Hint.NONE`. -/
def Hints.none : Hints := {}

/-! ## OutputStream constants (`output.py`) -/

/-- Column at which we consider wrapping. -/
def MAX_LINE_LEN : Nat := 80

/-- Required items on a line to consider wrapping. -/
def MIN_LINE_ITEMS : Nat := 5

/-- Minimum characters that a line needs to be too long. -/
def MIN_LINE_EXCESS : Nat := 5

/-- How many visible characters we chalk up for a tab. -/
def TAB_SIZE : Nat := 8

/-- When wrapping, add this many spaces onto tab-indentation. -/
def SPACE_INDENT : Nat := 4

/-! ## The line-wrap decision of `OutputStream._flush_line`

The loop over the line buffer names seven conditions (`cnd_*`) and then
branches: an advisory break (`cnd_good_after_lb`), hinted suppression
(`cnd_no_lb_after`, Python `continue`), a plain break when the remaining
five conditions all hold, or no break.  `tbd_len` is kept as `Int`
because `write_linebreak` subtracts dropped whitespace lengths from it
unconditionally. -/

/-- `cnd_good_after_lb`: the chunk says it best follows a break and the
whole line (`self._col`) is already too long. -/
def cndGoodAfterLb (h : Hints) (col : Nat) : Bool :=
  h.goodAfterLb && decide (col > MAX_LINE_LEN)

/-- `cnd_no_lb_after`: the caller requested no line break after this
chunk. -/
def cndNoLbAfter (h : Hints) : Bool :=
  h.noLbAfter

/-- `cnd_no_break_hints`: no advisory (`GOOD_AFTER_LB`) break has been
used on this line yet. -/
def cndNoBreakHints (usingBreakHints : Bool) : Bool :=
  !usingBreakHints

/-- `cnd_line_too_long`: what is pending would exceed `MAX_LINE_LEN`. -/
def cndLineTooLong (colFlushed : Nat) (tbdLen : Int) : Bool :=
  decide ((colFlushed : Int) + tbdLen > (MAX_LINE_LEN : Int))

/-- `cnd_enough_excess`: the pending length is worth breaking for. -/
def cndEnoughExcess (colFlushed : Nat) (tbdLen : Int) : Bool :=
  decide (tbdLen ≥ (MIN_LINE_EXCESS : Int)) ||
    decide (colFlushed > MAX_LINE_LEN + MIN_LINE_EXCESS)

/-- `cnd_enough_line_items`: enough non-whitespace items on the line. -/
def cndEnoughLineItems (lineItems : Nat) : Bool :=
  decide (lineItems ≥ MIN_LINE_ITEMS)

/-- `cnd_no_addl_wrap`: the continuation itself would stay within the
line limit. -/
def cndNoAddlWrap (tabIndent : Nat) (tbdLen : Int) : Bool :=
  decide ((tabIndent : Int) * (TAB_SIZE : Int) + tbdLen < (MAX_LINE_LEN : Int))

/-- What `_flush_line` does at a non-whitespace chunk: break on the
advisory hint, skip (`continue`) on suppression, break plainly when the
five remaining conditions hold, else just flush. -/
inductive BreakAction where
  | advisory
  | skip
  | plain
  | noBreak
  deriving Repr, DecidableEq

/-- The `if cnd_good_after_lb / elif cnd_no_lb_after / elif ⋀cnds` chain
of `OutputStream._flush_line`, as a function of the named conditions'
inputs. -/
def lineWrapDecision (h : Hints) (col : Nat) (usingBreakHints : Bool)
    (colFlushed : Nat) (tbdLen : Int) (lineItems : Nat) (tabIndent : Nat) :
    BreakAction :=
  if cndGoodAfterLb h col then .advisory
  else if cndNoLbAfter h then .skip
  else if cndNoBreakHints usingBreakHints && cndLineTooLong colFlushed tbdLen
      && cndEnoughExcess colFlushed tbdLen && cndEnoughLineItems lineItems
      && cndNoAddlWrap tabIndent tbdLen then .plain
  else .noBreak

/-! ## The OutputStream (`output.py`, class `OutputStream`)

One `Output` record of the Python line buffer holds a data chunk and a
reference to the formatter that wrote it; the stream only consults the
formatter's hint set, so a fragment here carries the hints directly.
(Python's reverse pass mutates the shared formatter object when tucking
`NO_LB_AFTER` onto a preceding fragment; here the hint lands on the
fragment itself, which coincides with the source whenever a formatter
has at most one non-whitespace fragment per line, and is immaterial to
the properties proved below.) -/

/-- An `Output` record of the line buffer: a data chunk plus the hints
of the formatter that wrote it. -/
structure Frag where
  data : List Nat
  hints : Hints
  deriving Repr, DecidableEq

/-- The state of an `OutputStream`, with `out` collecting the bytes
written to the underlying sink. -/
structure StreamSt where
  col : Nat
  tabIndent : Nat
  linebuffer : List Frag
  writebuffer : List (List Nat)
  enableLinebreaks : Bool
  useLinebreaks : Bool
  useTabIndent : Bool
  useSpaceAlign : Bool
  out : List Nat
  deriving Repr

/-- A fresh stream, as built by `OutputStream.__init__`. -/
def initStream (enableLinebreaks : Bool) : StreamSt :=
  { col := 0, tabIndent := 0, linebuffer := [], writebuffer := []
    enableLinebreaks := enableLinebreaks, useLinebreaks := true
    useTabIndent := true, useSpaceAlign := false, out := [] }

/-- `OutputStream._write`: push a chunk onto the write buffer; when it
ends in a newline, right-strip the joined buffer, re-append the newline,
and commit to the sink. -/
def sinkWrite (st : StreamSt) (data : List Nat) : StreamSt :=
  let wb := st.writebuffer ++ [data]
  if endsWithNl data then
    { st with writebuffer := [], out := st.out ++ rstripBytes wb.flatten ++ [nlByte] }
  else
    { st with writebuffer := wb }

/-- The local state of `_flush_line`'s fragment loop: the stream (for
`self._write` effects), `col_flushed`, the to-be-done batch and its
length, and the advisory-hint flag. -/
structure FlushSt where
  stream : StreamSt
  colFlushed : Nat
  tbd : List Frag
  tbdLen : Int
  usingBreakHints : Bool

/-- `flush_tbd`: write the batch out and account its width. -/
def flushTbd (s : FlushSt) : FlushSt :=
  { s with
    stream := s.tbd.foldl (fun st o => sinkWrite st o.data) s.stream
    colFlushed := s.tbd.foldl (fun n o => n + o.data.length) s.colFlushed
    tbd := [], tbdLen := 0 }

/-- The `while` loop of `write_linebreak` that pops pure-whitespace
fragments off the front of the continuation, adjusting `tbd_len`. -/
def dropLeadingWs : List Frag → Int → List Frag × Int
  | [], n => ([], n)
  | o :: rest, n =>
    if hasInk o.data then (o :: rest, n)
    else dropLeadingWs rest (n - o.data.length)

/-- `write_linebreak`: newline, tab indent, `SPACE_INDENT` spaces, reset
`col_flushed`, and drop leading whitespace from the continuation. -/
def writeLinebreak (s : FlushSt) : FlushSt :=
  let st := sinkWrite s.stream [nlByte]
  let st := sinkWrite st (List.replicate st.tabIndent 9)
  let st := sinkWrite st (List.replicate SPACE_INDENT 32)
  let td := dropLeadingWs s.tbd s.tbdLen
  { s with stream := st
           colFlushed := st.tabIndent * TAB_SIZE + SPACE_INDENT
           tbd := td.1, tbdLen := td.2 }

/-- The reverse scan of `_flush_line` over the reversed line buffer:
translate `NO_LB_BEFORE` on a fragment into `NO_LB_AFTER` on the
preceding non-whitespace fragment.  The input list is already
reversed. -/
def nlbMark : List Frag → Bool → List Frag
  | [], _ => []
  | o :: rest, needs =>
    let o' := if hasInk o.data && needs then
        { o with hints := { o.hints with noLbAfter := true } }
      else o
    o' :: nlbMark rest (o.hints.noLbBefore || (needs && !hasInk o.data))

/-- The reverse pass over the whole line buffer. -/
def revPass (lb : List Frag) : List Frag :=
  (nlbMark lb.reverse false).reverse

/-- One iteration of `_flush_line`'s fragment loop: append to the
batch, skip decisions on whitespace, and act on `lineWrapDecision`. -/
def flushFrag (col lineItems : Nat) (s : FlushSt) (o : Frag) : FlushSt :=
  let s := { s with
    tbd := s.tbd ++ [o]
    tbdLen := if o.hints.zeroWidth then s.tbdLen else s.tbdLen + o.data.length }
  if !hasInk o.data then s
  else
    match lineWrapDecision o.hints col s.usingBreakHints s.colFlushed s.tbdLen
        lineItems s.stream.tabIndent with
    | .advisory => flushTbd (writeLinebreak { s with usingBreakHints := true })
    | .skip => s
    | .plain => flushTbd (writeLinebreak s)
    | .noBreak => flushTbd s

/-- `OutputStream._flush_line`. -/
def flushLine (st : StreamSt) : StreamSt :=
  if !st.enableLinebreaks || !st.useLinebreaks then
    let st' := st.linebuffer.foldl (fun t o => sinkWrite t o.data) st
    { st' with linebuffer := [], col := 0 }
  else
    let lineItems := (st.linebuffer.filter (fun o => hasInk o.data)).length
    let lb := revPass st.linebuffer
    let s1 := lb.foldl (flushFrag st.col lineItems)
      { stream := st, colFlushed := 0, tbd := [], tbdLen := 0, usingBreakHints := false }
    let s2 := flushTbd s1
    { s2.stream with linebuffer := [], col := 0 }

/-- `OutputStream.write`: raw writes flush the line and bypass the
buffer, resyncing the column; buffered writes split the data at line
ends and flush on each newline-terminated chunk. -/
def streamWrite (st : StreamSt) (data : List Nat) (h : Hints) (raw : Bool) : StreamSt :=
  if raw then
    let st := flushLine st
    let st := sinkWrite st data
    { st with col := ((splitOnNl data).getLastD []).length }
  else
    (splitlinesKeep data).foldl
      (fun t chunk =>
        let t := { t with col := t.col + chunk.length
                          linebuffer := t.linebuffer ++ [⟨chunk, h⟩] }
        if endsWithNl chunk then flushLine t else t)
      st

/-- `OutputStream.write_tab_indent`: record the formatter's indent and
write that many tabs. -/
def streamWriteTabIndent (st : StreamSt) (ind : Nat) (h : Hints) : StreamSt :=
  if st.useTabIndent then
    streamWrite { st with tabIndent := ind } (List.replicate ind 9) h false
  else st

/-- `OutputStream.write_space_align`: four spaces when enabled. -/
def streamWriteSpaceAlign (st : StreamSt) (h : Hints) : StreamSt :=
  if st.useSpaceAlign then streamWrite st (List.replicate 4 32) h false else st

/-- `OutputStream._flush_writes`: terminate dangling output with a
newline. -/
def flushWrites (st : StreamSt) : StreamSt :=
  if !st.writebuffer.isEmpty && !endsWithNl (st.writebuffer.getLastD []) then
    sinkWrite st [nlByte]
  else st

/-- `OutputStream.__exit__`: flush the pending line, then the writes. -/
def closeStream (st : StreamSt) : StreamSt :=
  flushWrites (flushLine st)

/-! ## Claim C3: the non-advisory line-break condition -/

/-- C3, counterexample.  The claim states that at a non-whitespace
fragment without `NO_LB_AFTER` a non-advisory break is inserted exactly
when the five listed conditions hold.  At a fragment carrying
`GOOD_AFTER_LB` while the whole line is over `MAX_LINE_LEN`, the
advisory branch takes precedence even though all five conditions hold:
here `col = 81`, `col_flushed = 76`, `tbd_len = 5`, `line_items = 5`,
`tab_indent = 0`, no advisory break used yet — all five conditions of
the claim are satisfied, yet the decision is the advisory break, not
the plain one. -/
theorem c3_counterexample :
    ¬ (lineWrapDecision { goodAfterLb := true } 81 false 76 5 5 0 = BreakAction.plain ↔
        ((false = false) ∧ (76 : Int) + 5 > 80 ∧ ((5 : Int) ≥ 5 ∨ 76 > 85) ∧
          5 ≥ 5 ∧ (0 : Int) * 8 + 5 < 80)) ∧
      Hints.noLbAfter { goodAfterLb := true } = false ∧
      hasInk [97] = true := by
  constructor
  · intro h
    have h2 := h.mpr (by decide)
    exact absurd h2 (by decide)
  · constructor <;> decide

/-- C3 (amended): at a non-whitespace fragment without `NO_LB_AFTER`,
and which does not itself trigger the advisory break (it lacks
`GOOD_AFTER_LB`, or the whole line's column is within `MAX_LINE_LEN`),
a non-advisory break is inserted exactly when all five conditions hold:
no advisory break used on this line, `col_flushed + tbd_len > 80`,
`tbd_len ≥ 5` or `col_flushed > 85`, at least 5 non-whitespace
fragments on the line, and `tab_indent*8 + tbd_len < 80`. -/
theorem c3_theorem (h : Hints) (col : Nat) (usingBreakHints : Bool)
    (colFlushed : Nat) (tbdLen : Int) (lineItems tabIndent : Nat)
    (hnolb : h.noLbAfter = false)
    (hnoadv : ¬ (h.goodAfterLb = true ∧ col > MAX_LINE_LEN)) :
    lineWrapDecision h col usingBreakHints colFlushed tbdLen lineItems tabIndent
        = BreakAction.plain ↔
      (usingBreakHints = false ∧
        (colFlushed : Int) + tbdLen > (MAX_LINE_LEN : Int) ∧
        (tbdLen ≥ (MIN_LINE_EXCESS : Int) ∨ colFlushed > MAX_LINE_LEN + MIN_LINE_EXCESS) ∧
        lineItems ≥ MIN_LINE_ITEMS ∧
        (tabIndent : Int) * (TAB_SIZE : Int) + tbdLen < (MAX_LINE_LEN : Int)) := by
  have hga : cndGoodAfterLb h col = false := by
    cases hg : h.goodAfterLb with
    | false => simp [cndGoodAfterLb, hg]
    | true =>
      simp only [cndGoodAfterLb, hg, Bool.true_and, decide_eq_false_iff_not]
      intro hc
      exact hnoadv ⟨hg, hc⟩
  simp only [lineWrapDecision, hga, Bool.false_eq_true, if_false, cndNoLbAfter, hnolb,
    cndNoBreakHints, cndLineTooLong, cndEnoughExcess, cndEnoughLineItems, cndNoAddlWrap]
  cases usingBreakHints with
  | false =>
    simp only [Bool.not_false, Bool.true_and]
    constructor
    · intro hpl
      split at hpl
      · rename_i hall
        simp only [Bool.and_eq_true, Bool.or_eq_true, decide_eq_true_eq] at hall
        exact ⟨trivial, hall.1.1.1, hall.1.1.2, hall.1.2, hall.2⟩
      · exact absurd hpl (by simp)
    · intro ⟨_, h1, h2, h3, h4⟩
      have : (decide ((colFlushed : Int) + tbdLen > (MAX_LINE_LEN : Int)) &&
          (decide (tbdLen ≥ (MIN_LINE_EXCESS : Int)) ||
            decide (colFlushed > MAX_LINE_LEN + MIN_LINE_EXCESS)) &&
          decide (lineItems ≥ MIN_LINE_ITEMS) &&
          decide ((tabIndent : Int) * (TAB_SIZE : Int) + tbdLen < (MAX_LINE_LEN : Int))) = true := by
        simp only [Bool.and_eq_true, Bool.or_eq_true, decide_eq_true_eq]
        exact ⟨⟨⟨h1, h2⟩, h3⟩, h4⟩
      simp [this]
  | true =>
    simp

/-- C3 witness: with `col_flushed = 79`, `tbd_len = 10`, `line_items =
6`, `tab_indent = 0`, no hints and no advisory break used, the plain
break fires. -/
theorem c3_witness :
    lineWrapDecision Hints.none 0 false 79 10 6 0 = BreakAction.plain :=
  (c3_theorem Hints.none 0 false 79 10 6 0 rfl (by decide)).mpr (by decide)

/-! ## Tree nodes (`node.py`, class `Node`; parser contract of the spec)

`NodeData` collects the per-node attributes shared by the parser's
nodes and the cloned `zeekscript.Node`s: type string (Python `None`
modelled as `""`), the `is_named`/`is_missing`/`has_error` bits, and
the byte/point spans. -/

/-- The scalar attributes of a tree node. -/
structure NodeData where
  type : String := ""
  isNamed : Bool := false
  isMissing : Bool := false
  hasError : Bool := false
  startByte : Nat := 0
  endByte : Nat := 0
  startPoint : Nat × Nat := (0, 0)
  endPoint : Nat × Nat := (0, 0)
  deriving Repr, DecidableEq

/-- A node of the external tree-sitter parse tree (spec §6: the parser
contract).  Its children are all children, CST members included. -/
inductive TSNode where
  | mk (data : NodeData) (children : List TSNode)

/-- A `zeekscript.Node` of the cloned tree.  The sibling groupings are
the list-valued attributes set by `Script._clone_tree`; the direct
`prev_cst_sibling`/`next_cst_sibling` back-links of the Python object
graph have no place in a purely functional tree and are modelled
separately (see the anchoring and `NlFormatter` developments below). -/
inductive PNode where
  | mk (data : NodeData)
      (children nonerrChildren prevCstSiblings nextCstSiblings
        prevErrorSiblings nextErrorSiblings : List PNode)

def TSNode.data : TSNode → NodeData
  | .mk d _ => d

def TSNode.children : TSNode → List TSNode
  | .mk _ c => c

def TSNode.type (n : TSNode) : String := n.data.type

def TSNode.isMissing (n : TSNode) : Bool := n.data.isMissing

def TSNode.hasError (n : TSNode) : Bool := n.data.hasError

def PNode.data : PNode → NodeData
  | .mk d _ _ _ _ _ _ => d

def PNode.children : PNode → List PNode
  | .mk _ c _ _ _ _ _ => c

def PNode.nonerrChildren : PNode → List PNode
  | .mk _ _ c _ _ _ _ => c

def PNode.prevCstSiblings : PNode → List PNode
  | .mk _ _ _ c _ _ _ => c

def PNode.nextCstSiblings : PNode → List PNode
  | .mk _ _ _ _ c _ _ => c

def PNode.prevErrorSiblings : PNode → List PNode
  | .mk _ _ _ _ _ c _ => c

def PNode.nextErrorSiblings : PNode → List PNode
  | .mk _ _ _ _ _ _ c => c

def PNode.type (n : PNode) : String := n.data.type

def PNode.isNamed (n : PNode) : Bool := n.data.isNamed

def PNode.isMissing (n : PNode) : Bool := n.data.isMissing

def PNode.hasError (n : PNode) : Bool := n.data.hasError

def PNode.startByte (n : PNode) : Nat := n.data.startByte

def PNode.endByte (n : PNode) : Nat := n.data.endByte

def PNode.startPoint (n : PNode) : Nat × Nat := n.data.startPoint

/-- `Node.__eq__`: two nodes are equal when they cover the same byte
range in the script. -/
def nodeEqB (a b : PNode) : Bool :=
  a.startByte == b.startByte && a.endByte == b.endByte

/-! ### Node classification helpers (`node.py`) -/

/-- `Node.is_error`: a named node of type string `"ERROR"`. -/
def PNode.isErrorNode (n : PNode) : Bool :=
  n.isNamed && !(n.type == "") && n.type == "ERROR"

/-- `Node.is_nl`. -/
def PNode.isNl (n : PNode) : Bool :=
  n.isNamed && !(n.type == "") && n.type == "nl"

/-- `Node.is_comment`. -/
def PNode.isComment (n : PNode) : Bool :=
  n.isNamed && !(n.type == "") && endsWithStr n.type "_comment"

/-- `Node.is_minor_comment`. -/
def PNode.isMinorComment (n : PNode) : Bool :=
  n.isNamed && !(n.type == "") && n.type == "minor_comment"

/-- `Node.is_zeekygen_prev_comment`. -/
def PNode.isZeekygenPrevComment (n : PNode) : Bool :=
  n.isNamed && !(n.type == "") && n.type == "zeekygen_prev_comment"

/-! ### Traversal (`Node.traverse`, CST excluded)

`Node.traverse` with `include_cst=False` performs a preorder walk over
`children`, yielding `(node, nesting)` pairs. -/

mutual

def PNode.traverseAux : PNode → Nat → List (PNode × Nat)
  | .mk d cs ncs pcs xcs pes xes, depth =>
    (.mk d cs ncs pcs xcs pes xes, depth) :: PNode.traverseAuxMany cs (depth + 1)

def PNode.traverseAuxMany : List PNode → Nat → List (PNode × Nat)
  | [], _ => []
  | c :: cs, depth => PNode.traverseAux c depth ++ PNode.traverseAuxMany cs depth

end

/-- `Node.traverse()` from the root: the root at nesting 0. -/
def PNode.traverse (n : PNode) : List (PNode × Nat) :=
  n.traverseAux 0

/-! All nodes of a parser tree, root first (for "anywhere in the
tree"). -/
mutual

def TSNode.allNodes : TSNode → List TSNode
  | .mk d cs => .mk d cs :: TSNode.allNodesMany cs

def TSNode.allNodesMany : List TSNode → List TSNode
  | [] => []
  | c :: cs => TSNode.allNodes c ++ TSNode.allNodesMany cs

end

/-! ### The tree clone (`Script._clone_tree`, `make_node`)

This embedding models the portions of `make_node` that determine the
cloned tree's `children` and per-node attributes: the attribute copy,
the AST classification, the null-node corner cases, and the
`nonerr_children` filter.  The CST anchoring bookkeeping (which only
populates the `prev/next_cst_siblings` groupings) is modelled
separately below, and the ERROR-sibling bookkeeping only populates
`prev/next_error_siblings`; neither changes `children` or any node
attribute consulted by `Script.has_error`/`get_error`. -/

/-- `make_node`'s AST test: not a newline and not any comment kind. -/
def isAstType (t : String) : Bool :=
  !(t == "nl") && !(endsWithStr t "_comment")

/-- `make_nullnode`: a named AST node of type `"nullnode"`, all other
attributes at their `Node.__init__` defaults. -/
def nullnode : PNode :=
  .mk { type := "nullnode", isNamed := true } [] [] [] [] [] []

/-- First null-node corner case of `make_node`: a lone null node when
the original has children but none survived as AST. -/
def padEmpty (cs : List TSNode) (kids : List PNode) : List PNode :=
  if !cs.isEmpty && kids.isEmpty then [nullnode] else kids

/-- Second null-node corner case: a trailing null node when every AST
child is an `ERROR` node. -/
def padErrors (kids : List PNode) : List PNode :=
  if !kids.isEmpty && kids.all (fun c => c.type == "ERROR") then kids ++ [nullnode]
  else kids

/-- The null-node corner cases of `make_node`, combined. -/
def padKids (cs : List TSNode) (kids : List PNode) : List PNode :=
  padErrors (padEmpty cs kids)

mutual

def cloneAst : TSNode → PNode
  | .mk d cs =>
    let kids := padKids cs (cloneKids cs)
    .mk d kids (kids.filter (fun c => !(c.type == "ERROR"))) [] [] [] []

def cloneKids : List TSNode → List PNode
  | [] => []
  | c :: cs =>
    if isAstType c.type then cloneAst c :: cloneKids cs else cloneKids cs

end

/-! ### `Script.has_error` and `Script.parse` -/

/-- The per-node test of `Script.has_error`: type `"ERROR"`, or the
`is_missing` bit, or the `has_error` bit. -/
def offendP (n : PNode) : Bool :=
  n.type == "ERROR" || n.isMissing || n.hasError

/-- `Script.has_error`: scan the traversal for an offending node. -/
def hasErrorScript (root : PNode) : Bool :=
  root.traverse.any (fun nd => offendP nd.1)

/-- The error taxonomy of `error.py`: `FileError` wraps the failed
read's message, `ParserError` signals no usable tree. -/
inductive ScriptErr where
  | fileError (msg : String)
  | parserError
  deriving Repr, DecidableEq

/-- `Script.parse`, as a function of the outcome of reading the source
(`OSError` becomes `FileError`) and of the external parser (no tree
becomes `ParserError`).  `_patch_tree` only migrates CST groupings and
is immaterial to `has_error`. -/
def scriptParse (readRes : Except String (List Nat))
    (parser : List Nat → Option TSNode) : Except ScriptErr Bool :=
  match readRes with
  | .error e => .error (.fileError e)
  | .ok src =>
    match parser src with
    | none => .error .parserError
    | some t => .ok (!hasErrorScript (cloneAst t))

/-- The claim's per-node offence test on parser nodes. -/
def offendingTS (n : TSNode) : Bool :=
  n.type == "ERROR" || n.isMissing || n.hasError

/-- A node's own slice of the parser contract (spec §6): `"ERROR"`
nodes and missing nodes carry `has_error`, and `has_error` covers the
children ("subtree contains a parse error"). -/
def localContractOk (n : TSNode) : Bool :=
  (!(n.type == "ERROR") || n.hasError) &&
  (!n.isMissing || n.hasError) &&
  (n.hasError || n.children.all (fun c => !c.hasError))

/-! The parser contract, at every node of the tree. -/
mutual

def heInvB : TSNode → Bool
  | .mk d cs => localContractOk (.mk d cs) && heInvBMany cs

def heInvBMany : List TSNode → Bool
  | [] => true
  | c :: cs => heInvB c && heInvBMany cs

end

/-! ### Equation and helper lemmas for the tree functions -/

theorem TSNode_data_mk (d : NodeData) (cs : List TSNode) :
    (TSNode.mk d cs).data = d := rfl

theorem TSNode_children_mk (d : NodeData) (cs : List TSNode) :
    (TSNode.mk d cs).children = cs := rfl

theorem PNode_data_mk (d : NodeData)
    (cs ncs pcs xcs pes xes : List PNode) :
    (PNode.mk d cs ncs pcs xcs pes xes).data = d := rfl

theorem allNodes_eq (d : NodeData) (cs : List TSNode) :
    TSNode.allNodes (.mk d cs) = .mk d cs :: TSNode.allNodesMany cs := by
  rw [TSNode.allNodes]

theorem allNodesMany_nil : TSNode.allNodesMany [] = [] := by
  rw [TSNode.allNodesMany]

theorem allNodesMany_cons (c : TSNode) (cs : List TSNode) :
    TSNode.allNodesMany (c :: cs) = TSNode.allNodes c ++ TSNode.allNodesMany cs := by
  rw [TSNode.allNodesMany]

theorem traverseAux_eq (d : NodeData) (cs ncs pcs xcs pes xes : List PNode)
    (depth : Nat) :
    PNode.traverseAux (.mk d cs ncs pcs xcs pes xes) depth =
      (.mk d cs ncs pcs xcs pes xes, depth) :: PNode.traverseAuxMany cs (depth + 1) := by
  rw [PNode.traverseAux]

theorem traverseAuxMany_nil (depth : Nat) :
    PNode.traverseAuxMany [] depth = [] := by
  rw [PNode.traverseAuxMany]

theorem traverseAuxMany_cons (c : PNode) (cs : List PNode) (depth : Nat) :
    PNode.traverseAuxMany (c :: cs) depth =
      PNode.traverseAux c depth ++ PNode.traverseAuxMany cs depth := by
  rw [PNode.traverseAuxMany]

theorem heInvB_eq (d : NodeData) (cs : List TSNode) :
    heInvB (.mk d cs) = (localContractOk (.mk d cs) && heInvBMany cs) := by
  rw [heInvB]

theorem heInvBMany_cons (c : TSNode) (cs : List TSNode) :
    heInvBMany (c :: cs) = (heInvB c && heInvBMany cs) := by
  rw [heInvBMany]

theorem cloneAst_eq (d : NodeData) (cs : List TSNode) :
    cloneAst (.mk d cs) =
      .mk d (padKids cs (cloneKids cs))
        ((padKids cs (cloneKids cs)).filter (fun c => !(c.type == "ERROR"))) [] [] [] [] := by
  rw [cloneAst]

theorem cloneKids_nil : cloneKids [] = [] := by
  rw [cloneKids]

theorem cloneKids_cons (c : TSNode) (cs : List TSNode) :
    cloneKids (c :: cs) =
      if isAstType c.type then cloneAst c :: cloneKids cs else cloneKids cs := by
  rw [cloneKids]

/-- The cloned root copies the original's attributes. -/
theorem cloneAst_data (t : TSNode) : (cloneAst t).data = t.data := by
  cases t with
  | mk d cs => rw [cloneAst_eq]; rfl

/-- The offence tests agree on nodes carrying the same attributes. -/
theorem offend_transfer (p : PNode) (n : TSNode) (h : p.data = n.data) :
    offendP p = offendingTS n := by
  simp [offendP, offendingTS, PNode.type, PNode.isMissing, PNode.hasError,
    TSNode.type, TSNode.isMissing, TSNode.hasError, h]

/-- The null stand-in node never counts as an error. -/
theorem offendP_nullnode : offendP nullnode = false := by decide

/-! ### Errors anywhere in a contract-satisfying tree reach the root -/

/-- A node satisfying its contract slice that is itself offending has
`has_error` set. -/
theorem localOk_offend (n : TSNode) (hloc : localContractOk n = true)
    (hoff : offendingTS n = true) : n.hasError = true := by
  cases he : n.hasError with
  | true => rfl
  | false =>
    exfalso
    unfold localContractOk at hloc
    unfold offendingTS at hoff
    rw [he] at hloc hoff
    simp only [Bool.or_false, Bool.false_or, Bool.and_eq_true, Bool.or_eq_true,
      Bool.not_eq_eq_eq_not, Bool.not_true, beq_eq_false_iff_ne, ne_eq] at hloc hoff
    rcases hoff with h | h
    · exact absurd h (by simpa using hloc.1.1)
    · have := hloc.1.2
      simp [h] at this

/-- A node satisfying its contract slice whose child has `has_error`
has `has_error` itself. -/
theorem localOk_child (n : TSNode) (c : TSNode) (hloc : localContractOk n = true)
    (hc : c ∈ n.children) (hce : c.hasError = true) : n.hasError = true := by
  cases he : n.hasError with
  | true => rfl
  | false =>
    exfalso
    unfold localContractOk at hloc
    rw [he] at hloc
    simp only [Bool.or_false, Bool.false_or, Bool.and_eq_true, List.all_eq_true] at hloc
    have := hloc.2 c hc
    rw [hce] at this
    exact absurd this (by decide)

mutual

theorem offendUp : ∀ (t : TSNode), heInvB t = true →
    (TSNode.allNodes t).any offendingTS = true → t.hasError = true
  | .mk d cs => fun hinv hany => by
    rw [heInvB_eq, Bool.and_eq_true] at hinv
    obtain ⟨hloc, hmany⟩ := hinv
    rw [allNodes_eq, List.any_cons, Bool.or_eq_true] at hany
    rcases hany with hself | hrest
    · exact localOk_offend _ hloc hself
    · obtain ⟨c, hc, hce⟩ := offendUpMany cs hmany hrest
      exact localOk_child _ c hloc (by simpa [TSNode.children] using hc) hce

theorem offendUpMany : ∀ (cs : List TSNode), heInvBMany cs = true →
    (TSNode.allNodesMany cs).any offendingTS = true →
    ∃ c ∈ cs, c.hasError = true
  | [] => fun _ hany => by
    rw [allNodesMany_nil] at hany
    exact absurd hany (by decide)
  | c :: cs => fun hinv hany => by
    rw [heInvBMany_cons, Bool.and_eq_true] at hinv
    rw [allNodesMany_cons, List.any_append, Bool.or_eq_true] at hany
    rcases hany with hl | hr
    · exact ⟨c, List.mem_cons_self c cs, offendUp c hinv.1 hl⟩
    · obtain ⟨c', hc', he'⟩ := offendUpMany cs hinv.2 hr
      exact ⟨c', List.mem_cons_of_mem c hc', he'⟩

end

/-! ### Every node visited in the clone is a null node or a copy -/

theorem traverseAuxMany_append (l1 l2 : List PNode) (depth : Nat) :
    PNode.traverseAuxMany (l1 ++ l2) depth =
      PNode.traverseAuxMany l1 depth ++ PNode.traverseAuxMany l2 depth := by
  induction l1 with
  | nil => rw [traverseAuxMany_nil]; simp
  | cons a as ih =>
    rw [List.cons_append, traverseAuxMany_cons, traverseAuxMany_cons, ih,
      List.append_assoc]

theorem traverseAux_nullnode (depth : Nat) :
    PNode.traverseAux nullnode depth = [(nullnode, depth)] := by
  rw [show nullnode = PNode.mk { type := "nullnode", isNamed := true } [] [] [] [] [] [] from rfl,
    traverseAux_eq, traverseAuxMany_nil]

theorem traverseAuxMany_nullnode (depth : Nat) :
    PNode.traverseAuxMany [nullnode] depth = [(nullnode, depth)] := by
  rw [traverseAuxMany_cons, traverseAuxMany_nil, List.append_nil,
    traverseAux_nullnode]

/-- Walking the ERROR-padded list visits either the null padding or
something visited while walking the unpadded list. -/
theorem padErrors_visit (kids : List PNode) (depth : Nat) (p : PNode × Nat)
    (hp : p ∈ PNode.traverseAuxMany (padErrors kids) depth) :
    p.1 = nullnode ∨ p ∈ PNode.traverseAuxMany kids depth := by
  unfold padErrors at hp
  split at hp
  · rw [traverseAuxMany_append] at hp
    rcases List.mem_append.mp hp with h | h
    · right; exact h
    · rw [traverseAuxMany_nullnode] at h
      left
      rw [List.mem_singleton.mp h]
  · right; exact hp

/-- Likewise for the empty-AST padding. -/
theorem padEmpty_visit (cs : List TSNode) (kids : List PNode) (depth : Nat)
    (p : PNode × Nat) (hp : p ∈ PNode.traverseAuxMany (padEmpty cs kids) depth) :
    p.1 = nullnode ∨ p ∈ PNode.traverseAuxMany kids depth := by
  unfold padEmpty at hp
  split at hp
  · rw [traverseAuxMany_nullnode] at hp
    left
    rw [List.mem_singleton.mp hp]
  · right; exact hp

/-- Walking the padded child list visits either the null padding or
something visited while walking the unpadded list. -/
theorem padKids_visit (cs : List TSNode) (kids : List PNode) (depth : Nat)
    (p : PNode × Nat) (hp : p ∈ PNode.traverseAuxMany (padKids cs kids) depth) :
    p.1 = nullnode ∨ p ∈ PNode.traverseAuxMany kids depth := by
  unfold padKids at hp
  rcases padErrors_visit _ _ _ hp with h | h
  · exact Or.inl h
  · exact padEmpty_visit cs kids depth p h

mutual

theorem cloneVisited : ∀ (t : TSNode) (depth : Nat) (p : PNode × Nat),
    p ∈ (cloneAst t).traverseAux depth →
    p.1 = nullnode ∨ ∃ n ∈ t.allNodes, p.1.data = n.data
  | .mk d cs => fun depth p hp => by
    rw [cloneAst_eq, traverseAux_eq, List.mem_cons] at hp
    rcases hp with hroot | hkids
    · right
      refine ⟨.mk d cs, ?_, ?_⟩
      · rw [allNodes_eq]; exact List.mem_cons_self _ _
      · rw [hroot]; rfl
    · rcases padKids_visit cs (cloneKids cs) (depth + 1) p hkids with hn | hin
      · exact Or.inl hn
      · rcases cloneVisitedMany cs (depth + 1) p hin with hn | ⟨n, hn, hd⟩
        · exact Or.inl hn
        · right
          refine ⟨n, ?_, hd⟩
          rw [allNodes_eq]
          exact List.mem_cons_of_mem _ hn

theorem cloneVisitedMany : ∀ (cs : List TSNode) (depth : Nat) (p : PNode × Nat),
    p ∈ PNode.traverseAuxMany (cloneKids cs) depth →
    p.1 = nullnode ∨ ∃ n ∈ TSNode.allNodesMany cs, p.1.data = n.data
  | [] => fun depth p hp => by
    rw [cloneKids_nil, traverseAuxMany_nil] at hp
    exact absurd hp (List.not_mem_nil p)
  | c :: cs => fun depth p hp => by
    rw [cloneKids_cons] at hp
    split at hp
    · rw [traverseAuxMany_cons, List.mem_append] at hp
      rcases hp with h | h
      · rcases cloneVisited c depth p h with hn | ⟨n, hn, hd⟩
        · exact Or.inl hn
        · right
          exact ⟨n, by rw [allNodesMany_cons]; exact List.mem_append_left _ hn, hd⟩
      · rcases cloneVisitedMany cs depth p h with hn | ⟨n, hn, hd⟩
        · exact Or.inl hn
        · right
          exact ⟨n, by rw [allNodesMany_cons]; exact List.mem_append_right _ hn, hd⟩
    · rcases cloneVisitedMany cs depth p hp with hn | ⟨n, hn, hd⟩
      · exact Or.inl hn
      · right
        exact ⟨n, by rw [allNodesMany_cons]; exact List.mem_append_right _ hn, hd⟩

end

/-- Every node heads its own traversal. -/
theorem traverseAux_head (p : PNode) (depth : Nat) :
    ∃ rest, p.traverseAux depth = (p, depth) :: rest := by
  cases p with
  | mk d cs ncs pcs xcs pes xes => exact ⟨_, traverseAux_eq d cs ncs pcs xcs pes xes depth⟩

/-- For a contract-satisfying parser tree, `Script.has_error` on the
clone detects exactly the presence of an offending node anywhere in the
original tree. -/
theorem hasErrorClone_iff (t : TSNode) (hinv : heInvB t = true) :
    hasErrorScript (cloneAst t) = true ↔
      (TSNode.allNodes t).any offendingTS = true := by
  constructor
  · intro h
    unfold hasErrorScript PNode.traverse at h
    rw [List.any_eq_true] at h
    obtain ⟨pr, hmem, hoff⟩ := h
    rcases cloneVisited t 0 pr hmem with hn | ⟨n, hn, hd⟩
    · rw [hn, offendP_nullnode] at hoff
      exact absurd hoff (by decide)
    · rw [List.any_eq_true]
      exact ⟨n, hn, by rw [← offend_transfer pr.1 n hd]; exact hoff⟩
  · intro h
    have hroot := offendUp t hinv h
    unfold hasErrorScript PNode.traverse
    rw [List.any_eq_true]
    obtain ⟨rest, hr⟩ := traverseAux_head (cloneAst t) 0
    refine ⟨(cloneAst t, 0), by rw [hr]; exact List.mem_cons_self _ _, ?_⟩
    rw [offend_transfer (cloneAst t) t (cloneAst_data t)]
    unfold offendingTS
    rw [hroot]
    simp

/-! ## Claim C2: the contract of `Script.parse` -/

/-- C2: `Script.parse` raises `FileError` when the source cannot be
read, raises `ParserError` when the parser returns no usable tree, and
otherwise returns `True` exactly when the tree (satisfying the spec's
parser contract, under which `has_error` covers the subtree) contains
no `"ERROR"` node, no missing node, and no node with `has_error`,
anywhere. -/
theorem c2_theorem (parser : List Nat → Option TSNode)
    (readRes : Except String (List Nat)) :
    (∀ e, readRes = .error e →
      scriptParse readRes parser = .error (.fileError e)) ∧
    (∀ src, readRes = .ok src → parser src = none →
      scriptParse readRes parser = .error .parserError) ∧
    (∀ src t, readRes = .ok src → parser src = some t → heInvB t = true →
      (scriptParse readRes parser = .ok true ↔
        (TSNode.allNodes t).all (fun n => !offendingTS n) = true)) := by
  refine ⟨?_, ?_, ?_⟩
  · intro e he
    rw [he]
    rfl
  · intro src hre hp
    rw [hre]
    simp [scriptParse, hp]
  · intro src t hre hp hinv
    rw [hre]
    simp only [scriptParse, hp]
    constructor
    · intro h
      rw [Except.ok.injEq, Bool.not_eq_true'] at h
      rw [List.all_eq_true]
      intro n hn
      cases hoff : offendingTS n with
      | false => rfl
      | true =>
        exfalso
        have hany : (TSNode.allNodes t).any offendingTS = true :=
          List.any_eq_true.mpr ⟨n, hn, hoff⟩
        have := (hasErrorClone_iff t hinv).mpr hany
        rw [h] at this
        exact absurd this (by decide)
    · intro hall
      have hnoany : ¬ (TSNode.allNodes t).any offendingTS = true := by
        rw [List.any_eq_true]
        rintro ⟨n, hn, hoff⟩
        have := List.all_eq_true.mp hall n hn
        rw [hoff] at this
        exact absurd this (by decide)
      have hfe : hasErrorScript (cloneAst t) = false := by
        cases hhe : hasErrorScript (cloneAst t) with
        | false => rfl
        | true => exact absurd ((hasErrorClone_iff t hinv).mp hhe) hnoany
      rw [hfe]
      rfl

/-- A minimal error-free parser tree for the C2 witness. -/
def c2tree : TSNode := .mk { type := "source_file", isNamed := true } []

/-- C2 witness: a successful read and a clean one-node tree make
`parse` return `True`. -/
theorem c2_witness :
    scriptParse (.ok []) (fun _ => some c2tree) = .ok true :=
  ((c2_theorem (fun _ => some c2tree) (.ok [])).2.2 [] c2tree rfl rfl
    (by decide)).mpr (by decide)

/-! ## `Script.get_error` (claim C5)

`get_error` walks the traversal, builds the snippet from the source
bytes, and reports on the first node that is an `"ERROR"` node, is
missing, or introduces `has_error` (no child carries it).  Source bytes
are decoded here as ASCII/latin-1 (Python decodes UTF-8; the two agree
on ASCII input, and byte counts are what the truncation uses). -/

/-- Decode bytes to a string, one character per byte. -/
def decodeAscii (l : List Nat) : String :=
  ⟨l.map Char.ofNat⟩

/-- Python slice `src[a:b]` for forward indices. -/
def pySlice (src : List Nat) (a b : Nat) : List Nat :=
  (src.drop a).take (b - a)

/-- The snippet of `get_error`: the node's byte range, truncated at 50
bytes with a `[...]` suffix. -/
def snippetOf (src : List Nat) (n : PNode) : List Nat :=
  let snippet := pySlice src n.startByte n.endByte
  if snippet.length > 50 then snippet.take 50 ++ [91, 46, 46, 46, 93]
  else snippet

/-- Message for an `"ERROR"` node. -/
def errMsgOf (src : List Nat) (n : PNode) : String :=
  "cannot parse line " ++ toString n.startPoint.1 ++ ", col " ++
    toString n.startPoint.2 ++ ": \"" ++ decodeAscii (snippetOf src n) ++ "\""

/-- Message for a missing node. -/
def missingMsgOf (n : PNode) : String :=
  "missing grammar node \"" ++ n.type ++ "\" on line " ++
    toString n.startPoint.1 ++ ", col " ++ toString n.startPoint.2

/-- Message for a node that introduces the `has_error` state. -/
def propagatedMsgOf (n : PNode) : String :=
  "grammar node \"" ++ n.type ++ "\" has error on line " ++
    toString n.startPoint.1 ++ ", col " ++ toString n.startPoint.2

/-- The reported line: `self.source.split(NL)[row]` (a real tree's rows
are always in range; out of range Python would raise `IndexError`). -/
def lineOf (src : List Nat) (n : PNode) : String :=
  decodeAscii ((splitOnNl src).getD n.startPoint.1 [])

/-- The loop of `Script.get_error` over the traversal. -/
def getErrorAux (src : List Nat) : List (PNode × Nat) →
    Option String × Option Nat × Option String
  | [] => (none, none, none)
  | (n, _) :: rest =>
    if n.type == "ERROR" then
      (some (lineOf src n), some n.startPoint.1, some (errMsgOf src n))
    else if n.isMissing then
      (some (lineOf src n), some n.startPoint.1, some (missingMsgOf n))
    else if n.hasError && (n.children.isEmpty || !(n.children.any (fun k => k.hasError))) then
      (some (lineOf src n), some n.startPoint.1, some (propagatedMsgOf n))
    else getErrorAux src rest

/-- `Script.get_error`: the `(line, lineno, msg)` triple. -/
def getError (src : List Nat) (root : PNode) :
    Option String × Option Nat × Option String :=
  getErrorAux src root.traverse

/-- The combined per-node condition under which the loop stops. -/
def offendingEntry (n : PNode) : Bool :=
  n.type == "ERROR" || n.isMissing ||
    (n.hasError && (n.children.isEmpty || !(n.children.any (fun k => k.hasError))))

/-- The first node of the traversal on which `get_error` reports. -/
def firstOffending (root : PNode) : Option PNode :=
  (root.traverse.map Prod.fst).find? offendingEntry

/-- The message `get_error` builds for a stopping node. -/
def msgOf (src : List Nat) (n : PNode) : String :=
  if n.type == "ERROR" then errMsgOf src n
  else if n.isMissing then missingMsgOf n
  else propagatedMsgOf n

/-- The loop reports on the first node satisfying the stop condition. -/
theorem getErrorAux_found (src : List Nat) (l : List (PNode × Nat)) (n : PNode)
    (h : (l.map Prod.fst).find? offendingEntry = some n) :
    getErrorAux src l = (some (lineOf src n), some n.startPoint.1, some (msgOf src n)) := by
  induction l with
  | nil => simp at h
  | cons hd rest ih =>
    obtain ⟨m, dep⟩ := hd
    rw [List.map_cons] at h
    cases hoe : offendingEntry m with
    | true =>
      rw [List.find?_cons_of_pos _ hoe, Option.some.injEq] at h
      subst h
      unfold offendingEntry at hoe
      rw [getErrorAux]
      unfold msgOf
      by_cases h1 : (m.type == "ERROR") = true
      · simp [h1]
      · by_cases h2 : m.isMissing = true
        · simp [h1, h2]
        · have h3 : (m.hasError &&
              (m.children.isEmpty || !m.children.any fun k => k.hasError)) = true := by
            rw [Bool.or_eq_true, Bool.or_eq_true] at hoe
            rcases hoe with (hh | hh) | hh
            · exact absurd hh h1
            · exact absurd hh h2
            · exact hh
          simp [h1, h2, h3]
    | false =>
      rw [List.find?_cons_of_neg _ (by simp [hoe])] at h
      unfold offendingEntry at hoe
      rw [Bool.or_eq_false_iff, Bool.or_eq_false_iff] at hoe
      rw [getErrorAux]
      rw [if_neg (by simp [hoe.1.1]), if_neg (by simp [hoe.1.2]), if_neg (by simp [hoe.2])]
      exact ih h

/-! ## Claim C5: `get_error` reports the first offending node -/

/-- C5: for a tree with an offending node, `get_error` reports on the
first offending node in traversal order; the line number is the node's
0-based start row; for an `"ERROR"` node the message is
`cannot parse line {row}, col {col}: "{snippet}"` (snippet = the byte
range truncated at 50 bytes with a `[...]` suffix), with the precise
0-based start column; for a missing node it is
`missing grammar node "{type}" on line {row}, col {col}`. -/
theorem c5_theorem (src : List Nat) (root : PNode) (n : PNode)
    (hfind : firstOffending root = some n) :
    (getError src root).2.1 = some n.startPoint.1 ∧
    (n.type = "ERROR" →
      (getError src root).2.2 = some ("cannot parse line " ++ toString n.startPoint.1 ++
        ", col " ++ toString n.startPoint.2 ++ ": \"" ++
        decodeAscii (if (pySlice src n.startByte n.endByte).length > 50 then
            (pySlice src n.startByte n.endByte).take 50 ++ [91, 46, 46, 46, 93]
          else pySlice src n.startByte n.endByte) ++ "\"")) ∧
    (n.type ≠ "ERROR" → n.isMissing = true →
      (getError src root).2.2 = some ("missing grammar node \"" ++ n.type ++
        "\" on line " ++ toString n.startPoint.1 ++ ", col " ++
        toString n.startPoint.2)) := by
  unfold firstOffending at hfind
  have h := getErrorAux_found src root.traverse n hfind
  unfold getError
  rw [h]
  refine ⟨rfl, ?_, ?_⟩
  · intro htype
    have : msgOf src n = errMsgOf src n := by
      unfold msgOf
      rw [if_pos (by simpa using htype)]
    rw [this]
    rfl
  · intro htype hmiss
    have : msgOf src n = missingMsgOf n := by
      unfold msgOf
      rw [if_neg (by simpa using htype), if_pos hmiss]
    rw [this]
    rfl

/-- Source bytes `"xxx"` for the C5 witness. -/
def c5src : List Nat := [120, 120, 120]

/-- An `"ERROR"` root node covering those bytes. -/
def c5node : PNode :=
  .mk { type := "ERROR", isNamed := true, hasError := true, startByte := 0,
        endByte := 3, startPoint := (0, 0) } [] [] [] [] [] []

/-- C5 witness: the reported message for the `"ERROR"` node over
`"xxx"`. -/
theorem c5_witness :
    (getError c5src c5node).2.2 = some "cannot parse line 0, col 0: \"xxx\"" := by
  have h := (c5_theorem c5src c5node c5node rfl).2.1 rfl
  rw [h]
  rfl

/-! ## Claim C9: node equality is byte-range equality -/

/-- C9: `Node.__eq__` compares only the byte range — two nodes are
equal exactly when their `start_byte` and `end_byte` agree, regardless
of type, children, or any other attribute. -/
theorem c9_theorem (a b : PNode) :
    nodeEqB a b = true ↔ (a.startByte = b.startByte ∧ a.endByte = b.endByte) := by
  simp [nodeEqB]

/-! ## The CST anchoring pass of `Script._clone_tree`  (claim C4)

The anchoring loop walks a node's full child sequence in order,
deciding for every CST child whether it trails the most recent AST
child (joining its `next_cst_siblings`) or opens the `prevs` batch
flushed onto the next AST child's `prev_cst_siblings`.  Only a child's
`is_named` bit and type string enter the decisions, so a child is
modelled by those two attributes, with `is_ast` derived as in
`make_node`.  The state mirrors the loop variables `ast_node`
(by index), `ast_nodes_remaining`, `prevs` and `last_child`; the
assignments to `next_cst_siblings` and `prev_cst_siblings` are logged
as `(CST index, AST index)` pairs. -/

/-- A child as seen by the anchoring loop. -/
structure Child where
  isNamed : Bool
  type : String
  deriving Repr, DecidableEq

/-- `Node.is_nl`, over an anchoring child. -/
def Child.isNl (c : Child) : Bool :=
  c.isNamed && !(c.type == "") && c.type == "nl"

/-- `Node.is_comment`. -/
def Child.isComment (c : Child) : Bool :=
  c.isNamed && !(c.type == "") && endsWithStr c.type "_comment"

/-- `Node.is_minor_comment`. -/
def Child.isMinorComment (c : Child) : Bool :=
  c.isNamed && !(c.type == "") && c.type == "minor_comment"

/-- `Node.is_zeekygen_prev_comment`. -/
def Child.isZeekygenPrevComment (c : Child) : Bool :=
  c.isNamed && !(c.type == "") && c.type == "zeekygen_prev_comment"

/-- `Node.is_error`. -/
def Child.isErrorChild (c : Child) : Bool :=
  c.isNamed && !(c.type == "") && c.type == "ERROR"

/-- The loop state of the anchoring pass. -/
structure AnchorSt where
  astIdx : Option Nat
  remaining : Nat
  prevs : List Nat
  nexts : List (Nat × Nat)
  prevAssign : List (Nat × Nat)
  last : Option Child
  deriving Repr, DecidableEq

/-- `last_child and last_child.is_ast` (a `Node` is always truthy). -/
def lastIsAst : Option Child → Bool
  | some l => isAstType l.type
  | none => false

/-- `last_child and (last_child.is_comment() or last_child.is_error())`. -/
def lastIsCommentOrError : Option Child → Bool
  | some l => l.isComment || l.isErrorChild
  | none => false

/-- One iteration of the anchoring loop, on the enumerated child
`(i, c)`. -/
def anchorStep (st : AnchorSt) (ic : Nat × Child) : AnchorSt :=
  let i := ic.1
  let c := ic.2
  let st' :=
    if st.remaining == 0 then
      match st.astIdx with
      | some a => { st with nexts := st.nexts ++ [(i, a)] }
      | none => st
      -- the `none` arm is unreachable on clone inputs (at least one AST
      -- child exists once `remaining` hits 0); Python would raise there
    else if isAstType c.type then
      { st with remaining := st.remaining - 1
                prevAssign := st.prevAssign ++ st.prevs.map (fun p => (p, i))
                prevs := []
                astIdx := some i }
    else
      match st.astIdx with
      | none => { st with prevs := st.prevs ++ [i] }
      | some a =>
        if c.isZeekygenPrevComment then
          { st with nexts := st.nexts ++ [(i, a)] }
        else if c.isMinorComment && lastIsAst st.last then
          { st with nexts := st.nexts ++ [(i, a)] }
        else if c.isNl && lastIsCommentOrError st.last then
          { st with nexts := st.nexts ++ [(i, a)] }
        else
          { st with astIdx := none, prevs := [i] }
  { st' with last := some c }

/-- `len(new_node.children)`: the number of AST children. -/
def countAst (cs : List Child) : Nat :=
  (cs.filter (fun c => isAstType c.type)).length

/-- The loop's initial state. -/
def anchorInit (cs : List Child) : AnchorSt :=
  { astIdx := none, remaining := countAst cs, prevs := [], nexts := []
    prevAssign := [], last := none }

/-- Run the anchoring loop over a suffix of the enumerated children. -/
def runFrom (st : AnchorSt) (j : Nat) (ds : List Child) : AnchorSt :=
  (ds.enumFrom j).foldl anchorStep st

/-- The anchoring pass over a node's full child sequence. -/
def anchorRun (cs : List Child) : AnchorSt :=
  runFrom (anchorInit cs) 0 cs

/-- The claim's per-child trailing rule, with `last` the directly
preceding child in the sequence. -/
def trailRule (last c : Child) : Bool :=
  c.isZeekygenPrevComment || (c.isMinorComment && isAstType last.type) ||
    (c.isNl && (last.isComment || last.isErrorChild))

/-- `chainUpTo last ds k`: every child of `ds` up to and including
position `k` satisfies the trailing rule w.r.t. its predecessor. -/
def chainUpTo (last : Child) : List Child → Nat → Bool
  | [], _ => false
  | c :: _, 0 => trailRule last c
  | c :: ds, k + 1 => trailRule last c && chainUpTo c ds k

/-- Length of the maximal trailing-rule prefix. -/
def chainLen (last : Child) : List Child → Nat
  | [] => 0
  | c :: ds => if trailRule last c then chainLen c ds + 1 else 0

/-- The `last_child` value after walking a list, starting from `lo`. -/
def lastOf (lo : Option Child) : List Child → Option Child
  | [] => lo
  | c :: ds => lastOf (some c) ds

/-! ### Step lemmas for the anchoring loop -/

theorem runFrom_nil (st : AnchorSt) (j : Nat) : runFrom st j [] = st := rfl

theorem runFrom_cons (st : AnchorSt) (j : Nat) (c : Child) (ds : List Child) :
    runFrom st j (c :: ds) = runFrom (anchorStep st (j, c)) (j + 1) ds := rfl

theorem runFrom_append (st : AnchorSt) (j : Nat) (l1 l2 : List Child) :
    runFrom st j (l1 ++ l2) = runFrom (runFrom st j l1) (j + l1.length) l2 := by
  unfold runFrom
  rw [List.enumFrom_append, List.foldl_append]

theorem anchorStep_ast (st : AnchorSt) (i : Nat) (c : Child)
    (hr : st.remaining ≠ 0) (hc : isAstType c.type = true) :
    anchorStep st (i, c) =
      { st with remaining := st.remaining - 1
                prevAssign := st.prevAssign ++ st.prevs.map (fun p => (p, i))
                prevs := []
                astIdx := some i
                last := some c } := by
  obtain ⟨ai, r, q, N, P, lo⟩ := st
  unfold anchorStep
  simp only at hr ⊢
  rw [if_neg (by simpa using hr), if_pos hc]

theorem anchorStep_broken (st : AnchorSt) (i : Nat) (c : Child)
    (hr : st.remaining ≠ 0) (hc : isAstType c.type = false)
    (ha : st.astIdx = none) :
    anchorStep st (i, c) = { st with prevs := st.prevs ++ [i], last := some c } := by
  obtain ⟨ai, r, q, N, P, lo⟩ := st
  unfold anchorStep
  simp only at hr ha ⊢
  subst ha
  rw [if_neg (by simpa using hr), hc]
  rfl

theorem anchorStep_chain_pos (st : AnchorSt) (a i : Nat) (l c : Child)
    (hr : st.remaining ≠ 0) (hc : isAstType c.type = false)
    (ha : st.astIdx = some a) (hl : st.last = some l)
    (ht : trailRule l c = true) :
    anchorStep st (i, c) = { st with nexts := st.nexts ++ [(i, a)], last := some c } := by
  obtain ⟨ai, r, q, N, P, lo⟩ := st
  unfold anchorStep
  simp only at hr ha hl ⊢
  subst ha
  subst hl
  rw [if_neg (by simpa using hr), hc]
  simp only [Bool.false_eq_true, if_false]
  unfold trailRule at ht
  rw [Bool.or_eq_true, Bool.or_eq_true] at ht
  by_cases h1 : c.isZeekygenPrevComment = true
  · rw [if_pos h1]
  · rw [if_neg h1]
    by_cases h2 : (c.isMinorComment && lastIsAst (some l)) = true
    · rw [if_pos h2]
    · rw [if_neg h2]
      have h3 : (c.isNl && lastIsCommentOrError (some l)) = true := by
        rcases ht with (hh | hh) | hh
        · exact absurd hh h1
        · exact absurd (by simpa [lastIsAst] using hh) h2
        · simpa [lastIsCommentOrError] using hh
      rw [if_pos h3]

theorem anchorStep_chain_neg (st : AnchorSt) (a i : Nat) (l c : Child)
    (hr : st.remaining ≠ 0) (hc : isAstType c.type = false)
    (ha : st.astIdx = some a) (hl : st.last = some l)
    (ht : trailRule l c = false) :
    anchorStep st (i, c) = { st with astIdx := none, prevs := [i], last := some c } := by
  obtain ⟨ai, r, q, N, P, lo⟩ := st
  unfold anchorStep
  simp only at hr ha hl ⊢
  subst ha
  subst hl
  rw [if_neg (by simpa using hr), hc]
  simp only [Bool.false_eq_true, if_false]
  unfold trailRule at ht
  rw [Bool.or_eq_false_iff, Bool.or_eq_false_iff] at ht
  rw [if_neg (by simp [ht.1.1]), if_neg (by simp [lastIsAst, ht.1.2]),
    if_neg (by simp [lastIsCommentOrError, ht.2])]

theorem chainLen_nil (lC : Child) : chainLen lC [] = 0 := rfl

theorem chainLen_cons (lC c : Child) (ds : List Child) :
    chainLen lC (c :: ds) = if trailRule lC c then chainLen c ds + 1 else 0 := rfl

/-! ### Segment lemmas: broken chain, trailing chain, generic bounds -/

/-- With the chain broken (`ast_node is None`), every further CST child
joins `prevs`. -/
theorem runBroken (ds : List Child) : ∀ (j : Nat) (st : AnchorSt),
    (∀ c ∈ ds, isAstType c.type = false) → st.remaining ≠ 0 →
    st.astIdx = none →
    runFrom st j ds =
      { st with prevs := st.prevs ++ List.range' j ds.length
                last := lastOf st.last ds } := by
  induction ds with
  | nil =>
    intro j st _ _ _
    rw [runFrom_nil]
    obtain ⟨ai, r, q, N, P, lo⟩ := st
    simp [lastOf]
  | cons c ds ih =>
    intro j st hall hr ha
    rw [runFrom_cons,
      anchorStep_broken st j c hr (hall c (List.mem_cons_self c ds)) ha]
    rw [ih (j + 1) _ (fun d hd => hall d (List.mem_cons_of_mem _ hd))
      (by simpa using hr) (by simpa using ha)]
    obtain ⟨ai, r, q, N, P, lo⟩ := st
    simp only at ha
    subst ha
    rw [AnchorSt.mk.injEq]
    refine ⟨rfl, rfl, ?_, rfl, rfl, rfl⟩
    rw [List.length_cons, List.range'_succ, List.append_assoc]
    rfl

/-- From a freshly anchored AST child, the loop attaches exactly the
maximal trailing-rule prefix to that child's `next_cst_siblings` and
batches the rest for the following AST child. -/
theorem runMid (ds : List Child) : ∀ (j a : Nat) (st : AnchorSt) (lC : Child),
    (∀ c ∈ ds, isAstType c.type = false) → st.remaining ≠ 0 →
    st.astIdx = some a → st.prevs = [] → st.last = some lC →
    runFrom st j ds =
      { st with
        astIdx := if chainLen lC ds = ds.length then some a else none
        prevs := List.range' (j + chainLen lC ds) (ds.length - chainLen lC ds)
        nexts := st.nexts ++ (List.range' j (chainLen lC ds)).map (fun i => (i, a))
        last := lastOf (some lC) ds } := by
  induction ds with
  | nil =>
    intro j a st lC _ _ ha hp hl
    rw [runFrom_nil]
    obtain ⟨ai, r, q, N, P, lo⟩ := st
    simp only at ha hp hl
    subst ha
    subst hp
    subst hl
    simp [lastOf, chainLen, List.range']
  | cons c ds ih =>
    intro j a st lC hall hr ha hp hl
    have hcsub : ∀ d ∈ ds, isAstType d.type = false :=
      fun d hd => hall d (List.mem_cons_of_mem _ hd)
    cases ht : trailRule lC c with
    | true =>
      rw [runFrom_cons,
        anchorStep_chain_pos st a j lC c hr (hall c (List.mem_cons_self c ds)) ha hl ht]
      rw [ih (j + 1) a _ c hcsub (by simpa using hr) (by simpa using ha)
        (by simpa using hp) rfl]
      obtain ⟨ai, r, q, N, P, lo⟩ := st
      simp only at ha hp hl
      subst ha
      subst hp
      subst hl
      have hcl : chainLen lC (c :: ds) = chainLen c ds + 1 := by
        rw [chainLen_cons, if_pos ht]
      rw [AnchorSt.mk.injEq]
      refine ⟨?_, rfl, ?_, ?_, rfl, rfl⟩
      · rw [hcl, List.length_cons]
        by_cases hq : chainLen c ds = ds.length
        · rw [if_pos hq, if_pos (by omega)]
        · rw [if_neg hq, if_neg (by omega)]
      · rw [hcl, List.length_cons]
        congr 1 <;> omega
      · rw [hcl, List.range'_succ, List.map_cons, List.append_assoc]
        rfl
    | false =>
      rw [runFrom_cons,
        anchorStep_chain_neg st a j lC c hr (hall c (List.mem_cons_self c ds)) ha hl ht]
      rw [runBroken ds (j + 1) _ hcsub (by simpa using hr) rfl]
      obtain ⟨ai, r, q, N, P, lo⟩ := st
      simp only at ha hp hl
      subst ha
      subst hp
      subst hl
      have hcl : chainLen lC (c :: ds) = 0 := by
        rw [chainLen_cons, if_neg (by simp [ht])]
      rw [AnchorSt.mk.injEq]
      refine ⟨?_, rfl, ?_, ?_, rfl, rfl⟩
      · rw [hcl, List.length_cons, if_neg (by omega)]
      · rw [hcl, List.length_cons, Nat.add_zero, Nat.sub_zero, List.range'_succ]
        rfl
      · rw [hcl]
        simp [List.range']

theorem countAst_nil : countAst [] = 0 := rfl

theorem countAst_cons (c : Child) (ds : List Child) :
    countAst (c :: ds) = (if isAstType c.type then 1 else 0) + countAst ds := by
  unfold countAst
  rw [List.filter_cons]
  split
  · rw [List.length_cons]
    omega
  · omega

theorem countAst_append (l1 l2 : List Child) :
    countAst (l1 ++ l2) = countAst l1 + countAst l2 := by
  unfold countAst
  rw [List.filter_append, List.length_append]

theorem countAst_zero (l : List Child) (h : ∀ c ∈ l, isAstType c.type = false) :
    countAst l = 0 := by
  induction l with
  | nil => rfl
  | cons c ds ih =>
    rw [countAst_cons, if_neg (by simp [h c (List.mem_cons_self c ds)]),
      ih (fun d hd => h d (List.mem_cons_of_mem _ hd))]

/-- Per-step bounds: the step never removes log entries, new `nexts`
entries carry the current index, new `prevAssign` entries take their
CST index from the current `prevs`, and `prevs` grows by at most the
current index. -/
theorem anchorStep_shape (st : AnchorSt) (i : Nat) (c : Child) :
    (anchorStep st (i, c)).remaining = st.remaining - countAst [c] ∧
    (∃ e, (anchorStep st (i, c)).nexts = st.nexts ++ e ∧ ∀ q ∈ e, q.1 = i) ∧
    (∃ e, (anchorStep st (i, c)).prevAssign = st.prevAssign ++ e ∧
      ∀ q ∈ e, q.1 ∈ st.prevs) ∧
    (∀ p ∈ (anchorStep st (i, c)).prevs, p ∈ st.prevs ∨ p = i) := by
  obtain ⟨ai, r, q, N, P, lo⟩ := st
  have hc1 : countAst [c] = if isAstType c.type then 1 else 0 := by
    rw [countAst_cons, countAst_nil, Nat.add_zero]
  by_cases h0 : (r == 0) = true
  · have hr0 : r = 0 := by simpa using h0
    cases ai with
    | some a =>
      have hstep : anchorStep ⟨some a, r, q, N, P, lo⟩ (i, c) =
          ⟨some a, r, q, N ++ [(i, a)], P, some c⟩ := by
        unfold anchorStep
        simp only
        rw [if_pos h0]
      rw [hstep]
      refine ⟨?_, ⟨[(i, a)], rfl, by simp⟩, ⟨[], by simp, by simp⟩,
        fun p hp => Or.inl hp⟩
      show r = r - countAst [c]
      rw [hr0, Nat.zero_sub]
    | none =>
      have hstep : anchorStep ⟨none, r, q, N, P, lo⟩ (i, c) =
          ⟨none, r, q, N, P, some c⟩ := by
        unfold anchorStep
        simp only
        rw [if_pos h0]
      rw [hstep]
      refine ⟨?_, ⟨[], by simp, by simp⟩, ⟨[], by simp, by simp⟩,
        fun p hp => Or.inl hp⟩
      show r = r - countAst [c]
      rw [hr0, Nat.zero_sub]
  · by_cases hast : isAstType c.type = true
    · have hstep : anchorStep ⟨ai, r, q, N, P, lo⟩ (i, c) =
          ⟨some i, r - 1, [], N, P ++ q.map (fun p => (p, i)), some c⟩ := by
        unfold anchorStep
        simp only
        rw [if_neg h0, if_pos hast]
      rw [hstep]
      refine ⟨?_, ⟨[], by simp, by simp⟩, ⟨q.map (fun p => (p, i)), rfl, ?_⟩, by simp⟩
      · show r - 1 = r - countAst [c]
        rw [hc1, if_pos hast]
      · intro x hx
        obtain ⟨p, hp, hpe⟩ := List.mem_map.mp hx
        rw [← hpe]
        exact hp
    · have hastf : isAstType c.type = false := by simpa using hast
      have hcnt : r = r - countAst [c] := by
        rw [hc1, if_neg hast, Nat.sub_zero]
      cases ai with
      | none =>
        have hstep : anchorStep ⟨none, r, q, N, P, lo⟩ (i, c) =
            ⟨none, r, q ++ [i], N, P, some c⟩ := by
          unfold anchorStep
          simp only
          rw [if_neg h0, hastf]
          rfl
        rw [hstep]
        refine ⟨hcnt, ⟨[], by simp, by simp⟩, ⟨[], by simp, by simp⟩, ?_⟩
        intro p hp
        rcases List.mem_append.mp hp with h | h
        · exact Or.inl h
        · exact Or.inr (List.mem_singleton.mp h)
      | some a =>
        by_cases h1 : c.isZeekygenPrevComment = true
        · have hstep : anchorStep ⟨some a, r, q, N, P, lo⟩ (i, c) =
              ⟨some a, r, q, N ++ [(i, a)], P, some c⟩ := by
            unfold anchorStep
            simp only
            rw [if_neg h0, hastf]
            simp only [Bool.false_eq_true, if_false]
            rw [if_pos h1]
          rw [hstep]
          exact ⟨hcnt, ⟨[(i, a)], rfl, by simp⟩, ⟨[], by simp, by simp⟩,
            fun p hp => Or.inl hp⟩
        · by_cases h2 : (c.isMinorComment && lastIsAst lo) = true
          · have hstep : anchorStep ⟨some a, r, q, N, P, lo⟩ (i, c) =
                ⟨some a, r, q, N ++ [(i, a)], P, some c⟩ := by
              unfold anchorStep
              simp only
              rw [if_neg h0, hastf]
              simp only [Bool.false_eq_true, if_false]
              rw [if_neg h1, if_pos h2]
            rw [hstep]
            exact ⟨hcnt, ⟨[(i, a)], rfl, by simp⟩, ⟨[], by simp, by simp⟩,
              fun p hp => Or.inl hp⟩
          · by_cases h3 : (c.isNl && lastIsCommentOrError lo) = true
            · have hstep : anchorStep ⟨some a, r, q, N, P, lo⟩ (i, c) =
                  ⟨some a, r, q, N ++ [(i, a)], P, some c⟩ := by
                unfold anchorStep
                simp only
                rw [if_neg h0, hastf]
                simp only [Bool.false_eq_true, if_false]
                rw [if_neg h1, if_neg h2, if_pos h3]
              rw [hstep]
              exact ⟨hcnt, ⟨[(i, a)], rfl, by simp⟩, ⟨[], by simp, by simp⟩,
                fun p hp => Or.inl hp⟩
            · have hstep : anchorStep ⟨some a, r, q, N, P, lo⟩ (i, c) =
                  ⟨none, r, [i], N, P, some c⟩ := by
                unfold anchorStep
                simp only
                rw [if_neg h0, hastf]
                simp only [Bool.false_eq_true, if_false]
                rw [if_neg h1, if_neg h2, if_neg h3]
              rw [hstep]
              refine ⟨hcnt, ⟨[], by simp, by simp⟩, ⟨[], by simp, by simp⟩, ?_⟩
              intro p hp
              exact Or.inr (List.mem_singleton.mp hp)

/-- Segment bounds: running over a segment starting at index `j` only
appends log entries whose CST index lies in the segment (or, for
`prevAssign`, stems from the incoming `prevs`), and `prevs` ends up
within the incoming `prevs` plus the segment's indices. -/
theorem runSeg (ds : List Child) : ∀ (j : Nat) (st : AnchorSt),
    (runFrom st j ds).remaining = st.remaining - countAst ds ∧
    (∃ e, (runFrom st j ds).nexts = st.nexts ++ e ∧
      ∀ q ∈ e, j ≤ q.1 ∧ q.1 < j + ds.length) ∧
    (∃ e, (runFrom st j ds).prevAssign = st.prevAssign ++ e ∧
      ∀ q ∈ e, q.1 ∈ st.prevs ∨ (j ≤ q.1 ∧ q.1 < j + ds.length)) ∧
    (∀ p ∈ (runFrom st j ds).prevs, p ∈ st.prevs ∨ (j ≤ p ∧ p < j + ds.length)) := by
  induction ds with
  | nil =>
    intro j st
    rw [runFrom_nil]
    exact ⟨by rw [countAst_nil, Nat.sub_zero], ⟨[], by simp, by simp⟩,
      ⟨[], by simp, by simp⟩, fun p hp => Or.inl hp⟩
  | cons c ds ih =>
    intro j st
    rw [runFrom_cons]
    obtain ⟨hrem, ⟨e1, he1, hb1⟩, ⟨e2, he2, hb2⟩, hpv⟩ := anchorStep_shape st j c
    obtain ⟨hrem', ⟨f1, hf1, hc1⟩, ⟨f2, hf2, hc2⟩, hpv'⟩ := ih (j + 1) (anchorStep st (j, c))
    refine ⟨?_, ⟨e1 ++ f1, ?_, ?_⟩, ⟨e2 ++ f2, ?_, ?_⟩, ?_⟩
    · rw [hrem', hrem, countAst_cons, Nat.sub_sub]
      congr 1
      rw [countAst_cons, countAst_nil]
      omega
    · rw [hf1, he1, List.append_assoc]
    · intro x hx
      rcases List.mem_append.mp hx with h | h
      · have := hb1 x h
        rw [List.length_cons]
        omega
      · have := hc1 x h
        rw [List.length_cons]
        omega
    · rw [hf2, he2, List.append_assoc]
    · intro x hx
      rcases List.mem_append.mp hx with h | h
      · exact Or.inl (hb2 x h)
      · rcases hc2 x h with hh | hh
        · rcases hpv x.1 hh with hh' | hh'
          · exact Or.inl hh'
          · right
            rw [List.length_cons]
            omega
        · right
          rw [List.length_cons]
          omega
    · intro p hp
      rcases hpv' p hp with hh | hh
      · rcases hpv p hh with hh' | hh'
        · exact Or.inl hh'
        · right
          rw [List.length_cons]
          omega
      · right
        rw [List.length_cons]
        omega

/-- `chainUpTo` holds at `k` exactly when `k` falls inside the maximal
trailing-rule prefix. -/
theorem chainUpTo_lt (ds : List Child) : ∀ (lC : Child) (k : Nat), k < ds.length →
    (chainUpTo lC ds k = true ↔ k < chainLen lC ds) := by
  induction ds with
  | nil =>
    intro lC k hk
    simp at hk
  | cons c ds ih =>
    intro lC k hk
    cases k with
    | zero =>
      rw [chainUpTo, chainLen_cons]
      cases ht : trailRule lC c with
      | true => simp [ht]
      | false => simp [ht]
    | succ k =>
      rw [chainUpTo, chainLen_cons]
      cases ht : trailRule lC c with
      | true =>
        rw [Bool.true_and, if_pos rfl]
        rw [List.length_cons] at hk
        rw [ih c k (by omega)]
        omega
      | false =>
        rw [Bool.false_and, if_neg (by simp)]
        simp

theorem chainLen_le (ds : List Child) : ∀ lC, chainLen lC ds ≤ ds.length := by
  induction ds with
  | nil => intro lC; rw [chainLen_nil]; omega
  | cons c ds ih =>
    intro lC
    rw [chainLen_cons, List.length_cons]
    split
    · have := ih c
      omega
    · omega

/-- C4 (amended): for a CST child `C` at offset `k` strictly between
AST children `A` and `B` of the same node, `C` is attached to
`A.next_cst_siblings` exactly when every CST child from just after `A`
up to and including `C` satisfies the per-child trailing rule (it is a
`zeekygen_prev_comment`; or a `minor_comment` whose direct predecessor
is an AST node, i.e. `A` itself; or an `nl` whose direct predecessor is
a comment or an ERROR node).  As soon as one child fails the rule, it
and every following CST child before `B` is attached to
`B.prev_cst_siblings` — in particular a `zeekygen_prev_comment` after a
chain-breaking child no longer trails `A`. -/
theorem c4_theorem (pre mid post : List Child) (A B : Child) (k : Nat)
    (hA : isAstType A.type = true) (hB : isAstType B.type = true)
    (hmid : ∀ c ∈ mid, isAstType c.type = false) (hk : k < mid.length) :
    ((pre.length + 1 + k, pre.length) ∈
        (anchorRun (pre ++ A :: (mid ++ B :: post))).nexts ↔
      chainUpTo A mid k = true) ∧
    (chainUpTo A mid k = false →
      (pre.length + 1 + k, pre.length + 1 + mid.length) ∈
        (anchorRun (pre ++ A :: (mid ++ B :: post))).prevAssign) := by
  have hmid0 : countAst mid = 0 := countAst_zero mid hmid
  have hchle : chainLen A mid ≤ mid.length := chainLen_le mid A
  obtain ⟨hremP, ⟨nx0, hnx0, hbnx0⟩, ⟨pv0, hpv0, hbpv0⟩, hprevP⟩ :=
    runSeg pre 0 (anchorInit (pre ++ A :: (mid ++ B :: post)))
  set stP := runFrom (anchorInit (pre ++ A :: (mid ++ B :: post))) 0 pre with hstPdef
  have hinitrem : (anchorInit (pre ++ A :: (mid ++ B :: post))).remaining =
      countAst pre + (1 + (countAst mid + (1 + countAst post))) := by
    show countAst (pre ++ A :: (mid ++ B :: post)) = _
    rw [countAst_append, countAst_cons, countAst_append, countAst_cons,
      if_pos hA, if_pos hB]
  have hPrem : stP.remaining = 2 + countAst post := by
    rw [hremP, hinitrem, hmid0]
    omega
  have hAstep := anchorStep_ast stP pre.length A (by rw [hPrem]; omega) hA
  have hrA : (anchorStep stP (pre.length, A)).remaining ≠ 0 := by
    rw [hAstep]
    show stP.remaining - 1 ≠ 0
    rw [hPrem]
    omega
  have haA : (anchorStep stP (pre.length, A)).astIdx = some pre.length := by
    rw [hAstep]
  have hpA : (anchorStep stP (pre.length, A)).prevs = [] := by
    rw [hAstep]
  have hlA : (anchorStep stP (pre.length, A)).last = some A := by
    rw [hAstep]
  have hMid := runMid mid (pre.length + 1) pre.length
    (anchorStep stP (pre.length, A)) A hmid hrA haA hpA hlA
  have hrM : (runFrom (anchorStep stP (pre.length, A)) (pre.length + 1) mid).remaining ≠ 0 := by
    rw [hMid]
    show (anchorStep stP (pre.length, A)).remaining ≠ 0
    exact hrA
  have hBstep := anchorStep_ast
    (runFrom (anchorStep stP (pre.length, A)) (pre.length + 1) mid)
    (pre.length + 1 + mid.length) B hrM hB
  obtain ⟨_, ⟨nxP, hnxP, hbnxP⟩, ⟨pvP, hpvP, hbpvP⟩, _⟩ :=
    runSeg post (pre.length + 1 + mid.length + 1)
      (anchorStep (runFrom (anchorStep stP (pre.length, A)) (pre.length + 1) mid)
        (pre.length + 1 + mid.length, B))
  have hrun : anchorRun (pre ++ A :: (mid ++ B :: post)) =
      runFrom
        (anchorStep (runFrom (anchorStep stP (pre.length, A)) (pre.length + 1) mid)
          (pre.length + 1 + mid.length, B))
        (pre.length + 1 + mid.length + 1) post := by
    unfold anchorRun
    rw [runFrom_append, Nat.zero_add, runFrom_cons, runFrom_append, runFrom_cons]
  have hn1 : stP.nexts = nx0 := by
    rw [hnx0]
    rfl
  have hn2 : (anchorStep stP (pre.length, A)).nexts = nx0 := by
    rw [hAstep]
    exact hn1
  have hn3 : (runFrom (anchorStep stP (pre.length, A)) (pre.length + 1) mid).nexts =
      nx0 ++ (List.range' (pre.length + 1) (chainLen A mid)).map
        (fun i => (i, pre.length)) := by
    rw [hMid]
    show (anchorStep stP (pre.length, A)).nexts ++ _ = _
    rw [hn2]
  have hn4 : (anchorStep (runFrom (anchorStep stP (pre.length, A)) (pre.length + 1) mid)
      (pre.length + 1 + mid.length, B)).nexts =
      nx0 ++ (List.range' (pre.length + 1) (chainLen A mid)).map
        (fun i => (i, pre.length)) := by
    rw [hBstep]
    exact hn3
  have hnexts : (anchorRun (pre ++ A :: (mid ++ B :: post))).nexts =
      (nx0 ++ (List.range' (pre.length + 1) (chainLen A mid)).map
        (fun i => (i, pre.length))) ++ nxP := by
    rw [hrun, hnxP, hn4]
  have hprevsM : (runFrom (anchorStep stP (pre.length, A)) (pre.length + 1) mid).prevs =
      List.range' (pre.length + 1 + chainLen A mid) (mid.length - chainLen A mid) := by
    rw [hMid]
  have hpassM : (runFrom (anchorStep stP (pre.length, A)) (pre.length + 1) mid).prevAssign =
      (anchorStep stP (pre.length, A)).prevAssign := by
    rw [hMid]
  have hp4 : (anchorStep (runFrom (anchorStep stP (pre.length, A)) (pre.length + 1) mid)
      (pre.length + 1 + mid.length, B)).prevAssign =
      (anchorStep stP (pre.length, A)).prevAssign ++
        (List.range' (pre.length + 1 + chainLen A mid) (mid.length - chainLen A mid)).map
          (fun p => (p, pre.length + 1 + mid.length)) := by
    rw [hBstep]
    show (runFrom (anchorStep stP (pre.length, A)) (pre.length + 1) mid).prevAssign ++
        ((runFrom (anchorStep stP (pre.length, A)) (pre.length + 1) mid).prevs.map _) = _
    rw [hpassM, hprevsM]
  have hpassign : (anchorRun (pre ++ A :: (mid ++ B :: post))).prevAssign =
      ((anchorStep stP (pre.length, A)).prevAssign ++
        (List.range' (pre.length + 1 + chainLen A mid) (mid.length - chainLen A mid)).map
          (fun p => (p, pre.length + 1 + mid.length))) ++ pvP := by
    rw [hrun, hpvP, hp4]
  constructor
  · rw [hnexts]
    refine Iff.trans ?_ (chainUpTo_lt mid A k hk).symm
    constructor
    · intro hmem
      rcases List.mem_append.mp hmem with hmem | hmem
      · rcases List.mem_append.mp hmem with hmem | hmem
        · have := hbnx0 _ hmem
          simp only [Nat.zero_add] at this
          omega
        · obtain ⟨i, hi, heq⟩ := List.mem_map.mp hmem
          obtain ⟨hi1, hi2⟩ := List.mem_range'_1.mp hi
          have : i = pre.length + 1 + k := by
            have := congrArg Prod.fst heq
            simpa using this
          omega
      · have := hbnxP _ hmem
        omega
    · intro hlt
      refine List.mem_append.mpr (Or.inl (List.mem_append.mpr (Or.inr ?_)))
      exact List.mem_map.mpr ⟨pre.length + 1 + k,
        List.mem_range'_1.mpr ⟨by omega, by omega⟩, rfl⟩
  · intro hfail
    have hnlt : ¬ k < chainLen A mid := by
      intro hcon
      have := (chainUpTo_lt mid A k hk).mpr hcon
      rw [hfail] at this
      exact absurd this (by decide)
    rw [hpassign]
    refine List.mem_append.mpr (Or.inl (List.mem_append.mpr (Or.inr ?_)))
    exact List.mem_map.mpr ⟨pre.length + 1 + k,
      List.mem_range'_1.mpr ⟨by omega, by omega⟩, rfl⟩

/-- C4 witness: in `[A, ##<, B]` the `zeekygen_prev_comment` directly
after `A` trails `A` (an unbroken chain of length one). -/
theorem c4_witness :
    ((0 + 1 + 0, 0) ∈
        (anchorRun ([] ++ ⟨true, "expr"⟩ :: ([⟨true, "zeekygen_prev_comment"⟩] ++
          ⟨true, "expr"⟩ :: []))).nexts ↔
      chainUpTo ⟨true, "expr"⟩ [⟨true, "zeekygen_prev_comment"⟩] 0 = true) ∧
    ((0 + 1 + 0, 0) ∈
      (anchorRun ([] ++ ⟨true, "expr"⟩ :: ([⟨true, "zeekygen_prev_comment"⟩] ++
        ⟨true, "expr"⟩ :: []))).nexts) :=
  have h := c4_theorem [] [⟨true, "zeekygen_prev_comment"⟩] [] ⟨true, "expr"⟩
    ⟨true, "expr"⟩ 0 rfl rfl (by intro c hc; simp at hc; rw [hc]; rfl) (by decide)
  ⟨h.1, h.1.mpr rfl⟩

/-- C4, counterexample.  Children `[A, nl, ##<, B]` with `A`, `B` AST:
by the claim, the `zeekygen_prev_comment` at index 2 always trails `A`
(index 0).  In the code, the plain newline at index 1 breaks the
trailing chain (its predecessor `A` is neither a comment nor an ERROR
node), so the comment is attached to `B.prev_cst_siblings` instead:
the run assigns nothing to any `next_cst_siblings` and attaches indices
1 and 2 to the AST child at index 3. -/
theorem c4_counterexample :
    Child.isZeekygenPrevComment ⟨true, "zeekygen_prev_comment"⟩ = true ∧
    (anchorRun [⟨true, "expr"⟩, ⟨true, "nl"⟩, ⟨true, "zeekygen_prev_comment"⟩,
      ⟨true, "expr"⟩]).nexts = [] ∧
    (anchorRun [⟨true, "expr"⟩, ⟨true, "nl"⟩, ⟨true, "zeekygen_prev_comment"⟩,
      ⟨true, "expr"⟩]).prevAssign = [(1, 3), (2, 3)] := by
  exact ⟨rfl, rfl, rfl⟩

/-! ## `NlFormatter` blank-line collapsing  (claim C7)

`NlFormatter.format` decides from a newline node's CST sibling chain
whether to emit one forced blank line.  A sibling level is modelled as
an indexed list of `Child`ren; `prev_cst_sibling`/`next_cst_sibling`
are the neighbouring indices. -/

/-- `node.token() == t`: `token()` is the type of an unnamed node and
`None` for named ones (`None == t` is `False`). -/
def tokenIs (c : Child) (t : String) : Bool :=
  !c.isNamed && c.type == t

/-- The `while` loop of `NlFormatter.format`: from position `i`, walk
back over newline predecessors to the start of the run. -/
def runStart (cs : List Child) : Nat → Nat
  | 0 => 0
  | i + 1 =>
    match cs.get? i with
    | some p => if p.isNl then runStart cs i else i + 1
    | none => i + 1

/-- `NlFormatter.format` at chain position `i`: `true` when it writes
its one forced newline (producing a blank line), `false` when it writes
nothing. -/
def nlWrites (cs : List Child) (i : Nat) : Bool :=
  match cs.get? (i + 1) with
  | none => false
  | some nxt =>
    if nxt.isNl then false
    else if tokenIs nxt "\x7d" then false
    else
      match (if i = 0 then none else cs.get? (i - 1)) with
      | none => false
      | some p =>
        if p.isNl then
          match (if runStart cs i = 0 then none else cs.get? (runStart cs i - 1)) with
          | none => false
          | some q => !(tokenIs q "\x7b")
        else false

/-- Walking back from inside a maximal newline run reaches its start. -/
theorem runStart_eq (cs : List Child) (i : Nat)
    (hleft : i = 0 ∨ (∃ c, cs.get? (i - 1) = some c ∧ c.isNl = false)) :
    ∀ j, i ≤ j → (∀ m, i ≤ m → m ≤ j → ∃ c, cs.get? m = some c ∧ c.isNl = true) →
    runStart cs j = i := by
  intro j
  induction j with
  | zero =>
    intro hij _
    rw [runStart]
    omega
  | succ m ih =>
    intro hij hrun
    rw [runStart]
    by_cases him : i ≤ m
    · obtain ⟨c, hc, hcn⟩ := hrun m him (by omega)
      rw [hc]
      simp only [hcn, if_true]
      exact ih him (fun x h1 h2 => hrun x h1 (by omega))
    · have hi : i = m + 1 := by omega
      rcases hleft with h0 | ⟨c, hc, hcn⟩
      · omega
      · rw [hi] at hc
        simp only [Nat.add_sub_cancel] at hc
        rw [hc]
        simp [hcn, hi]

/-- C7 (amended): within a maximal run of newline nodes `[i, j]` on a
sibling chain, only the final newline can produce a blank line, and it
does so exactly when the run has length at least two, is followed by a
node other than a `"}"` token, does not start the chain, and the node
before the run is not a `"{"` token.  In particular each run yields at
most one blank line, and runs adjacent to the braces of a block (or at
the start or end of their sibling sequence) yield none. -/
theorem c7_theorem (cs : List Child) (i j : Nat)
    (hij : i ≤ j)
    (hrun : ∀ m, i ≤ m → m ≤ j → ∃ c, cs.get? m = some c ∧ c.isNl = true)
    (hleft : i = 0 ∨ (∃ c, cs.get? (i - 1) = some c ∧ c.isNl = false)) :
    ∀ m, i ≤ m → m ≤ j →
      (nlWrites cs m = true ↔
        (m = j ∧ i < j ∧
          (∃ c, cs.get? (j + 1) = some c ∧ c.isNl = false ∧ tokenIs c "\x7d" = false) ∧
          0 < i ∧
          (∃ c, cs.get? (i - 1) = some c ∧ tokenIs c "\x7b" = false))) := by
  intro m him hmj
  by_cases hmjeq : m = j
  · subst hmjeq
    rw [nlWrites]
    cases hnxt : cs.get? (m + 1) with
    | none =>
      simp only
      constructor
      · intro h
        exact absurd h (by decide)
      · rintro ⟨-, -, ⟨c, hc, -⟩, -⟩
        exact absurd hc (by simp)
    | some nxt =>
      simp only
      by_cases hnl : nxt.isNl = true
      · rw [if_pos hnl]
        constructor
        · intro h
          exact absurd h (by decide)
        · rintro ⟨-, -, ⟨c, hc, hcn, -⟩, -⟩
          injection hc with hce
          rw [hce] at hnl
          rw [hnl] at hcn
          exact absurd hcn (by decide)
      · rw [if_neg hnl]
        by_cases hbrace : tokenIs nxt "\x7d" = true
        · rw [if_pos hbrace]
          constructor
          · intro h
            exact absurd h (by decide)
          · rintro ⟨-, -, ⟨c, hc, -, hcb⟩, -⟩
            injection hc with hce
            rw [hce] at hbrace
            rw [hbrace] at hcb
            exact absurd hcb (by decide)
        · rw [if_neg hbrace]
          by_cases hij' : i < m
          · -- run of length ≥ 2: the predecessor is a newline
            have hm1 : ¬ m = 0 := by omega
            obtain ⟨p, hp, hpn⟩ := hrun (m - 1) (by omega) (by omega)
            rw [if_neg hm1, hp]
            simp only [hpn, if_true]
            have hrs : runStart cs m = i :=
              runStart_eq cs i hleft m (by omega)
                (fun x h1 h2 => hrun x h1 (by omega))
            rw [hrs]
            by_cases hi0 : i = 0
            · rw [if_pos hi0]
              simp only
              constructor
              · intro h
                exact absurd h (by decide)
              · rintro ⟨-, -, -, hi, -⟩
                omega
            · rw [if_neg hi0]
              cases hq : cs.get? (i - 1) with
              | none =>
                simp only
                constructor
                · intro h
                  exact absurd h (by decide)
                · rintro ⟨-, -, -, -, c, hc, -⟩
                  exact absurd hc (by simp)
              | some q =>
                simp only [Bool.not_eq_true']
                constructor
                · intro h
                  refine ⟨by trivial, by omega,
                    ⟨nxt, rfl, by simpa using hnl, by simpa using hbrace⟩,
                    by omega, ⟨q, rfl, h⟩⟩
                · rintro ⟨-, -, -, -, c, hc, hcb⟩
                  injection hc with hce
                  rw [hce]
                  exact hcb
          · -- run of length 1: the predecessor (if any) is not a newline
            have hieq : i = m := by omega
            constructor
            · intro h
              exfalso
              rcases hleft with h0 | ⟨c, hc, hcn⟩
              · have hm0 : m = 0 := by omega
                rw [if_pos hm0] at h
                exact Bool.false_ne_true h
              · by_cases hi0 : i = 0
                · obtain ⟨d, hd, hdn⟩ := hrun i (Nat.le_refl i) (by omega)
                  rw [hi0] at hc hd
                  simp only [Nat.zero_sub] at hc
                  rw [hd] at hc
                  injection hc with hce
                  rw [hce] at hdn
                  rw [hcn] at hdn
                  exact absurd hdn (by decide)
                · have hmne : ¬ m = 0 := by omega
                  rw [if_neg hmne] at h
                  rw [hieq] at hc
                  rw [hc] at h
                  simp [hcn] at h
            · rintro ⟨-, hlt, -⟩
              omega
  · -- not the last newline of the run: the next sibling is a newline
    rw [nlWrites]
    obtain ⟨c, hc, hcn⟩ := hrun (m + 1) (by omega) (by omega)
    rw [hc]
    simp only [hcn, if_true]
    constructor
    · intro h
      exact absurd h (by decide)
    · rintro ⟨he, -⟩
      exact absurd he hmjeq

/-- C7 witness: in the chain `stmt, nl, nl, stmt` (a blank line between
two statements), the second newline writes the single blank line. -/
theorem c7_witness :
    nlWrites [⟨true, "stmt"⟩, ⟨true, "nl"⟩, ⟨true, "nl"⟩, ⟨true, "stmt"⟩] 2 = true :=
  (c7_theorem [⟨true, "stmt"⟩, ⟨true, "nl"⟩, ⟨true, "nl"⟩, ⟨true, "stmt"⟩] 1 2
    (by omega)
    (by
      intro m h1 h2
      have hm : m = 1 ∨ m = 2 := by omega
      rcases hm with h | h <;> (subst h; exact ⟨_, rfl, rfl⟩))
    (Or.inr ⟨⟨true, "stmt"⟩, rfl, rfl⟩) 2 (by omega) (by omega)).mpr
    ⟨rfl, by omega, ⟨⟨true, "stmt"⟩, rfl, rfl, rfl⟩, by omega, ⟨⟨true, "stmt"⟩, rfl, rfl⟩⟩

/-! ## The formatter interpreter (`formatter.py`)

A fuel-indexed interpreter for the formatter recursion: the default
`Formatter`, `NullFormatter` and `ErrorFormatter`, together with the
base-class plumbing (`_write`, `_write_sp`, `_write_nl`,
`_write_indent`, `_format_child`, `_format_children`,
`_format_token`).  The state carries the output stream plus a log of
the `Formatter._write` calls (data and raw flag), so theorems can speak
about what a formatter emits before stream post-processing.  Fuel only
bounds the recursion depth; every theorem below either supplies ample
fuel for its concrete tree or holds for every successor fuel value. -/

/-- Formatter-side state: the stream and the `Formatter._write` log. -/
structure FmtSt where
  stream : StreamSt
  log : List (List Nat × Bool)

/-- `Node.script_range` start adjustment under `with_cst`: descend the
first-child chain to the first node with preceding CST siblings. -/
def digPrevCst : PNode → Option Nat
  | .mk _ cs _ pcs _ _ _ =>
    match pcs with
    | p :: _ => some p.startByte
    | [] =>
      match cs with
      | c :: _ => digPrevCst c
      | [] => none

/-! `Node.script_range` end adjustment under `with_cst`: descend the
last-child chain to the first node with succeeding CST siblings. -/
mutual

def digNextCst : PNode → Option Nat
  | .mk _ cs _ _ xcs _ _ =>
    match xcs.getLast? with
    | some p => some p.endByte
    | none => digNextCstL cs

def digNextCstL : List PNode → Option Nat
  | [] => none
  | [c] => digNextCst c
  | _ :: c :: rest => digNextCstL (c :: rest)

end

/-- `Node.script_range`. -/
def scriptRange (n : PNode) (withCst : Bool) : Nat × Nat :=
  if withCst then
    (match digPrevCst n with
     | some s => max n.startByte s
     | none => n.startByte,
     match digNextCst n with
     | some e => max n.endByte e
     | none => n.endByte)
  else (n.startByte, n.endByte)

/-- Route a write through the stream, keeping the log. -/
def fmtStreamWrite (st : FmtSt) (data : List Nat) (h : Hints) (raw : Bool) : FmtSt :=
  { st with stream := streamWrite st.stream data h raw }

/-- `Formatter._write_indent`: at column 0, emit the tab indent and any
space alignment; report whether indentation happened. -/
def fmtWriteIndent (ind : Nat) (h : Hints) (st : FmtSt) : FmtSt × Bool :=
  if st.stream.col == 0 then
    let s1 := streamWriteTabIndent st.stream ind h
    let s2 := streamWriteSpaceAlign s1 h
    ({ st with stream := s2 }, true)
  else (st, false)

/-- `Formatter._write`: log the call; unless the data starts with a
newline, indent at column 0 and left-strip the data after indenting. -/
def fmtWrite (ind : Nat) (h : Hints) (st : FmtSt) (data : List Nat) (raw : Bool) : FmtSt :=
  let st := { st with log := st.log ++ [(data, raw)] }
  if startsWithNl data then fmtStreamWrite st data h raw
  else
    let pr := fmtWriteIndent ind h st
    if pr.2 then fmtStreamWrite pr.1 (lstripBytes data) h raw
    else fmtStreamWrite pr.1 data h raw

/-- `Formatter._write_sp`. -/
def fmtWriteSp (ind : Nat) (h : Hints) (num : Nat) (st : FmtSt) : FmtSt :=
  fmtWrite ind h st (List.replicate num 32) false

/-- `Formatter._write_nl`: skip at column 0 unless forced; always set
the space-alignment mode afterwards. -/
def fmtWriteNl (ind : Nat) (h : Hints) (num : Nat) (force isMidline : Bool)
    (st : FmtSt) : FmtSt :=
  if st.stream.col == 0 && !force then
    { st with stream := { st.stream with useSpaceAlign := isMidline } }
  else
    let st := fmtWrite ind h st (List.replicate num 10) false
    { st with stream := { st.stream with useSpaceAlign := isMidline } }

/-- The formatter classes reachable from the node types used in this
development. -/
inductive FKind where
  | default
  | null
  | error
  deriving Repr, DecidableEq

/-- `Formatter.lookup` / `NodeMapper.get`, for the node types used in
this development: unnamed or untyped nodes use the base `Formatter`;
`"ERROR"` resolves to `ErrorFormatter` and the registered `"nullnode"`
to `NullFormatter`; any other type used here (`"source_file"`,
`"decl"`, `"stmt_list"`, plain tokens) has no matching class and falls
back to the base `Formatter`.  (Types whose derived class exists in
`formatter.py`, such as `"expr"`, are not modelled and never appear in
the trees below.) -/
def lookupFmt (n : PNode) : FKind :=
  if !n.isNamed || n.type == "" then .default
  else if n.type == "ERROR" then .error
  else if n.type == "nullnode" then .null
  else .default

mutual

/-- Dispatch on the node's formatter class and run its `format()`. -/
def formatNode : Nat → List Nat → PNode → Nat → Hints → FmtSt → FmtSt
  | 0, _, _, _, _, st => st
  | fuel + 1, src, n, ind, h, st =>
    match lookupFmt n with
    | .null => st
    | .error => errorFormat fuel src n ind h st
    | .default => defaultFormat fuel src n ind h st
termination_by structural fuel => fuel

/-- The base `Formatter.format`: children if any, else the token. -/
def defaultFormat : Nat → List Nat → PNode → Nat → Hints → FmtSt → FmtSt
  | 0, _, _, _, _, st => st
  | fuel + 1, src, n, ind, h, st =>
    if n.children.isEmpty then
      fmtWrite ind h st (pySlice src (scriptRange n false).1 (scriptRange n false).2) false
    else
      match n.nonerrChildren with
      | [] => st
      | c :: rest =>
        let st := formatChildFull fuel src c ind false h st
        formatChildrenRest fuel src rest ind st
termination_by structural fuel => fuel

/-- The `while self._children_remaining()` loop of `_format_children`
(no separator in the base class). -/
def formatChildrenRest : Nat → List Nat → List PNode → Nat → FmtSt → FmtSt
  | 0, _, _, _, st => st
  | _, _, [], _, st => st
  | fuel + 1, src, c :: rest, ind, st =>
    let st := formatChildFull fuel src c ind false Hints.none st
    formatChildrenRest fuel src rest ind st
termination_by structural fuel => fuel

/-- `Formatter._format_child`: bracket the AST child with its error and
CST siblings. -/
def formatChildFull : Nat → List Nat → PNode → Nat → Bool → Hints → FmtSt → FmtSt
  | 0, _, _, _, _, _, st => st
  | fuel + 1, src, c, ind, indentFlag, h, st =>
    let st := formatErrList fuel src c.prevErrorSiblings ind indentFlag st
    let st := formatImplList fuel src c.prevCstSiblings ind indentFlag st
    let st := formatChildImpl fuel src c ind indentFlag h st
    let st := formatImplList fuel src c.nextCstSiblings ind indentFlag st
    formatErrList fuel src c.nextErrorSiblings ind indentFlag st
termination_by structural fuel => fuel

/-- Error siblings go through `_format_child` (full bracketing). -/
def formatErrList : Nat → List Nat → List PNode → Nat → Bool → FmtSt → FmtSt
  | 0, _, _, _, _, st => st
  | _, _, [], _, _, st => st
  | fuel + 1, src, c :: rest, ind, indentFlag, st =>
    let st := formatChildFull fuel src c ind indentFlag Hints.none st
    formatErrList fuel src rest ind indentFlag st
termination_by structural fuel => fuel

/-- CST siblings go through `_format_child_impl`. -/
def formatImplList : Nat → List Nat → List PNode → Nat → Bool → FmtSt → FmtSt
  | 0, _, _, _, _, st => st
  | _, _, [], _, _, st => st
  | fuel + 1, src, c :: rest, ind, indentFlag, st =>
    let st := formatChildImpl fuel src c ind indentFlag Hints.none st
    formatImplList fuel src rest ind indentFlag st
termination_by structural fuel => fuel

/-- `Formatter._format_child_impl`: instantiate the child's formatter
at `self.indent + int(indent)` and run it. -/
def formatChildImpl : Nat → List Nat → PNode → Nat → Bool → Hints → FmtSt → FmtSt
  | 0, _, _, _, _, _, st => st
  | fuel + 1, src, c, ind, indentFlag, h, st =>
    formatNode fuel src c (ind + (if indentFlag then 1 else 0)) h st
termination_by structural fuel => fuel

/-- `ErrorFormatter.format`: a childless ERROR node is preserved raw
between two protective spaces; otherwise children with their own
children are formatted normally and only the gaps are preserved raw. -/
def errorFormat : Nat → List Nat → PNode → Nat → Hints → FmtSt → FmtSt
  | 0, _, _, _, _, st => st
  | fuel + 1, src, n, ind, h, st =>
    if n.children.isEmpty then
      let st := fmtWriteSp ind h 1 st
      let st := fmtWrite ind h st
        (pySlice src (scriptRange n false).1 (scriptRange n false).2) true
      fmtWriteSp ind h 1 st
    else
      let start := (scriptRange n false).1
      let stop := (scriptRange n true).2
      let st := fmtWriteSp ind h 1 st
      let res := errorKidsLoop fuel src n.children ind h (start, st)
      let st :=
        if res.1 < stop then fmtWrite ind h res.2 (pySlice src res.1 stop) true
        else res.2
      fmtWriteSp ind h 1 st
termination_by structural fuel => fuel

/-- The child loop of `ErrorFormatter.format`, carrying the raw-write
cursor. -/
def errorKidsLoop : Nat → List Nat → List PNode → Nat → Hints → Nat × FmtSt → Nat × FmtSt
  | 0, _, _, _, _, acc => acc
  | _, _, [], _, _, acc => acc
  | fuel + 1, src, c :: rest, ind, h, (start, st) =>
    if c.children.isEmpty then errorKidsLoop fuel src rest ind h (start, st)
    else
      let cstart := (scriptRange c false).1
      let cstop := (scriptRange c false).2
      let st :=
        if start < cstart then fmtWrite ind h st (pySlice src start cstart) true
        else st
      let st := formatChildFull fuel src c ind false Hints.none st
      errorKidsLoop fuel src rest ind h (cstop, st)
termination_by structural fuel => fuel

end

/-- `Script.format` to an in-memory sink with `enable_linebreaks`:
look up the root's formatter, run it, and close the stream. -/
def scriptFormat (fuel : Nat) (src : List Nat) (root : PNode)
    (enableLb : Bool) : List Nat :=
  let st := formatNode fuel src root 0 Hints.none
    { stream := initStream enableLb, log := [] }
  (closeStream st.stream).out

/-- Substring test on byte lists. -/
def containsSub (needle : List Nat) : List Nat → Bool
  | [] => needle.isEmpty
  | b :: rest => needle.isPrefixOf (b :: rest) || containsSub needle rest

/-! ## Fuel adequacy: the formatter recursion terminates

`scriptFormat` is fuel-indexed only to express the recursion in Lean;
the Python recursion terminates because it descends the finite tree.
This is captured by an explicit recursion bound `fmtCost`, computed
from the tree, past which the fuel parameter does not affect the
result: the interpreter completes the whole recursion. -/

mutual

def fmtCost : PNode → Nat
  | .mk _ cs ncs pcs xcs pes xes =>
    8 + fmtCostL cs + fmtCostL ncs + fmtCostL pcs + fmtCostL xcs
      + fmtCostL pes + fmtCostL xes

def fmtCostL : List PNode → Nat
  | [] => 0
  | c :: rest => 1 + fmtCost c + fmtCostL rest

end

/-- The bound in terms of the node's list fields. -/
theorem fmtCost_eq (n : PNode) : fmtCost n =
    8 + fmtCostL n.children + fmtCostL n.nonerrChildren
      + fmtCostL n.prevCstSiblings + fmtCostL n.nextCstSiblings
      + fmtCostL n.prevErrorSiblings + fmtCostL n.nextErrorSiblings := by
  cases n
  rfl

theorem fmtCostL_cons (c : PNode) (rest : List PNode) :
    fmtCostL (c :: rest) = 1 + fmtCost c + fmtCostL rest := rfl

/-! One fuel step is absorbed by every interpreter function once the
fuel dominates the bound; mutual induction on the fuel. -/

mutual

theorem stepNode : ∀ (fuel : Nat) (src : List Nat) (n : PNode) (ind : Nat)
    (h : Hints) (st : FmtSt), fmtCost n ≤ fuel + 2 →
    formatNode (fuel + 1) src n ind h st = formatNode fuel src n ind h st
  | 0, _, n, _, _, _, hle => absurd hle (by have h8 := fmtCost_eq n; omega)
  | fuel + 1, src, n, ind, h, st, hle => by
    simp only [formatNode]
    cases hfk : lookupFmt n with
    | null => rfl
    | error => exact stepError fuel src n ind h st (by omega)
    | default => exact stepDefault fuel src n ind h st (by omega)

theorem stepDefault : ∀ (fuel : Nat) (src : List Nat) (n : PNode) (ind : Nat)
    (h : Hints) (st : FmtSt), fmtCost n ≤ fuel + 3 →
    defaultFormat (fuel + 1) src n ind h st = defaultFormat fuel src n ind h st
  | 0, _, n, _, _, _, hle => absurd hle (by have h8 := fmtCost_eq n; omega)
  | fuel + 1, src, n, ind, h, st, hle => by
    have hcost := fmtCost_eq n
    simp only [defaultFormat]
    by_cases hk : n.children.isEmpty = true
    · rw [if_pos hk, if_pos hk]
    · rw [if_neg hk, if_neg hk]
      cases hn : n.nonerrChildren with
      | nil => rfl
      | cons c rest =>
        rw [hn, fmtCostL_cons] at hcost
        dsimp only
        rw [stepFull fuel src c ind false h st (by omega)]
        exact stepRest fuel src rest ind _ (by omega)

theorem stepRest : ∀ (fuel : Nat) (src : List Nat) (cs : List PNode) (ind : Nat)
    (st : FmtSt), fmtCostL cs ≤ fuel →
    formatChildrenRest (fuel + 1) src cs ind st
      = formatChildrenRest fuel src cs ind st
  | fuel, _, [], _, _, _ => by cases fuel <;> rfl
  | 0, _, c :: rest, _, _, hle => by
    rw [fmtCostL_cons] at hle
    exact absurd hle (by omega)
  | fuel + 1, src, c :: rest, ind, st, hle => by
    rw [fmtCostL_cons] at hle
    simp only [formatChildrenRest]
    rw [stepFull fuel src c ind false Hints.none st (by omega)]
    exact stepRest fuel src rest ind _ (by omega)

theorem stepFull : ∀ (fuel : Nat) (src : List Nat) (c : PNode) (ind : Nat)
    (iflag : Bool) (h : Hints) (st : FmtSt), fmtCost c ≤ fuel →
    formatChildFull (fuel + 1) src c ind iflag h st
      = formatChildFull fuel src c ind iflag h st
  | 0, _, c, _, _, _, _, hle => absurd hle (by have h8 := fmtCost_eq c; omega)
  | fuel + 1, src, c, ind, iflag, h, st, hle => by
    have hcost := fmtCost_eq c
    simp only [formatChildFull]
    rw [stepErrL fuel src c.prevErrorSiblings ind iflag st (by omega)]
    rw [stepImplL fuel src c.prevCstSiblings ind iflag _ (by omega)]
    rw [stepImpl fuel src c ind iflag h _ (by omega)]
    rw [stepImplL fuel src c.nextCstSiblings ind iflag _ (by omega)]
    exact stepErrL fuel src c.nextErrorSiblings ind iflag _ (by omega)

theorem stepErrL : ∀ (fuel : Nat) (src : List Nat) (cs : List PNode) (ind : Nat)
    (iflag : Bool) (st : FmtSt), fmtCostL cs ≤ fuel →
    formatErrList (fuel + 1) src cs ind iflag st
      = formatErrList fuel src cs ind iflag st
  | fuel, _, [], _, _, _, _ => by cases fuel <;> rfl
  | 0, _, c :: rest, _, _, _, hle => by
    rw [fmtCostL_cons] at hle
    exact absurd hle (by omega)
  | fuel + 1, src, c :: rest, ind, iflag, st, hle => by
    rw [fmtCostL_cons] at hle
    simp only [formatErrList]
    rw [stepFull fuel src c ind iflag Hints.none st (by omega)]
    exact stepErrL fuel src rest ind iflag _ (by omega)

theorem stepImplL : ∀ (fuel : Nat) (src : List Nat) (cs : List PNode) (ind : Nat)
    (iflag : Bool) (st : FmtSt), fmtCostL cs ≤ fuel →
    formatImplList (fuel + 1) src cs ind iflag st
      = formatImplList fuel src cs ind iflag st
  | fuel, _, [], _, _, _, _ => by cases fuel <;> rfl
  | 0, _, c :: rest, _, _, _, hle => by
    rw [fmtCostL_cons] at hle
    exact absurd hle (by omega)
  | fuel + 1, src, c :: rest, ind, iflag, st, hle => by
    rw [fmtCostL_cons] at hle
    simp only [formatImplList]
    rw [stepImpl fuel src c ind iflag Hints.none st (by omega)]
    exact stepImplL fuel src rest ind iflag _ (by omega)

theorem stepImpl : ∀ (fuel : Nat) (src : List Nat) (c : PNode) (ind : Nat)
    (iflag : Bool) (h : Hints) (st : FmtSt), fmtCost c ≤ fuel + 1 →
    formatChildImpl (fuel + 1) src c ind iflag h st
      = formatChildImpl fuel src c ind iflag h st
  | 0, _, c, _, _, _, _, hle => absurd hle (by have h8 := fmtCost_eq c; omega)
  | fuel + 1, src, c, ind, iflag, h, st, hle => by
    simp only [formatChildImpl]
    exact stepNode fuel src c _ h st (by omega)

theorem stepError : ∀ (fuel : Nat) (src : List Nat) (n : PNode) (ind : Nat)
    (h : Hints) (st : FmtSt), fmtCost n ≤ fuel + 3 →
    errorFormat (fuel + 1) src n ind h st = errorFormat fuel src n ind h st
  | 0, _, n, _, _, _, hle => absurd hle (by have h8 := fmtCost_eq n; omega)
  | fuel + 1, src, n, ind, h, st, hle => by
    have hcost := fmtCost_eq n
    simp only [errorFormat]
    by_cases hk : n.children.isEmpty = true
    · rw [if_pos hk, if_pos hk]
    · rw [if_neg hk, if_neg hk]
      rw [stepKids fuel src n.children ind h _ (by omega)]

theorem stepKids : ∀ (fuel : Nat) (src : List Nat) (cs : List PNode) (ind : Nat)
    (h : Hints) (acc : Nat × FmtSt), fmtCostL cs ≤ fuel →
    errorKidsLoop (fuel + 1) src cs ind h acc
      = errorKidsLoop fuel src cs ind h acc
  | fuel, _, [], _, _, _, _ => by cases fuel <;> rfl
  | 0, _, c :: rest, _, _, _, hle => by
    rw [fmtCostL_cons] at hle
    exact absurd hle (by omega)
  | fuel + 1, src, c :: rest, ind, h, acc, hle => by
    rw [fmtCostL_cons] at hle
    obtain ⟨start, st⟩ := acc
    simp only [errorKidsLoop]
    by_cases hk : c.children.isEmpty = true
    · rw [if_pos hk, if_pos hk]
      exact stepKids fuel src rest ind h (start, st) (by omega)
    · rw [if_neg hk, if_neg hk]
      rw [stepFull fuel src c ind false Hints.none _ (by omega)]
      exact stepKids fuel src rest ind h _ (by omega)

end

/-- Any surplus of fuel over the bound is irrelevant. -/
theorem formatNode_stable (src : List Nat) (n : PNode) (ind : Nat) (h : Hints)
    (st : FmtSt) : ∀ (k : Nat),
    formatNode (fmtCost n + k) src n ind h st = formatNode (fmtCost n) src n ind h st
  | 0 => rfl
  | k + 1 => by
    rw [show fmtCost n + (k + 1) = (fmtCost n + k) + 1 from rfl]
    rw [stepNode (fmtCost n + k) src n ind h st (by omega)]
    exact formatNode_stable src n ind h st k

/-- `Script.format` terminates: past the bound, fuel does not affect
the output. -/
theorem scriptFormat_stable (src : List Nat) (root : PNode) (enableLb : Bool)
    (fuel : Nat) (hfuel : fmtCost root ≤ fuel) :
    scriptFormat fuel src root enableLb
      = scriptFormat (fmtCost root) src root enableLb := by
  obtain ⟨k, rfl⟩ : ∃ k, fuel = fmtCost root + k := ⟨fuel - fmtCost root, by omega⟩
  unfold scriptFormat
  rw [formatNode_stable]

/-! ## Claim C6: ERROR-node preservation

The counterexample script is `"q a  b"` (bytes `[113, 32, 97, 32, 32,
98]`), parsed into a single ERROR node covering the whole script whose
`decl` child `"a  b"` has two token children.  Because that child has
children of its own, `ErrorFormatter.format` reformats it instead of
preserving its bytes, so the ERROR node's byte range does not appear
verbatim in the output. -/

/-- The C6 source bytes, `"q a  b"`. -/
def c6src : List Nat := [113, 32, 97, 32, 32, 98]

/-- Token child `"a"` at bytes `[2, 3)`. -/
def c6a : PNode :=
  .mk { type := "a", startByte := 2, endByte := 3 } [] [] [] [] [] []

/-- Token child `"b"` at bytes `[5, 6)`. -/
def c6b : PNode :=
  .mk { type := "b", startByte := 5, endByte := 6 } [] [] [] [] [] []

/-- The structured child of the ERROR node: a `decl` over `"a  b"`. -/
def c6decl : PNode :=
  .mk { type := "decl", isNamed := true, startByte := 2, endByte := 6 }
    [c6a, c6b] [c6a, c6b] [] [] [] []

/-- The ERROR root over the whole script. -/
def c6tree : PNode :=
  .mk { type := "ERROR", isNamed := true, hasError := true
        startByte := 0, endByte := 6 }
    [c6decl] [c6decl] [] [] [] []

/-- C6, counterexample.  The claim states that the byte range of every
ERROR node of the parse tree appears verbatim somewhere in the output.
Formatting `"q a  b"` under the ERROR root above yields `"q ab\n"`:
the child with children is reformatted (its formatter emits the two
tokens back to back), so the ERROR node's range `"q a  b"` appears
nowhere in the output. -/
theorem c6_counterexample :
    scriptFormat 16 c6src c6tree true = [113, 32, 97, 98, 10] ∧
    containsSub (pySlice c6src c6tree.startByte c6tree.endByte)
      (scriptFormat 16 c6src c6tree true) = false :=
  ⟨by decide, by decide⟩

/-- `_write` through the stream leaves the formatter log unchanged. -/
theorem fmtStreamWrite_log (st : FmtSt) (d : List Nat) (h : Hints) (r : Bool) :
    (fmtStreamWrite st d h r).log = st.log := rfl

/-- `_write_indent` leaves the formatter log unchanged. -/
theorem fmtWriteIndent_log (ind : Nat) (h : Hints) (st : FmtSt) :
    (fmtWriteIndent ind h st).1.log = st.log := by
  unfold fmtWriteIndent
  split <;> rfl

/-- `Formatter._write` appends exactly its data and raw flag to the
log, whatever the stream does with the bytes. -/
theorem fmtWrite_log (ind : Nat) (h : Hints) (st : FmtSt) (data : List Nat)
    (raw : Bool) :
    (fmtWrite ind h st data raw).log = st.log ++ [(data, raw)] := by
  unfold fmtWrite
  split
  · rfl
  · dsimp only
    split
    · rw [fmtStreamWrite_log, fmtWriteIndent_log]
    · rw [fmtStreamWrite_log, fmtWriteIndent_log]

/-- For a childless ERROR node, `ErrorFormatter.format` performs
exactly three writes: one protective space, the node's source byte
range raw and verbatim, and one protective space. -/
theorem errorFormat_childless_log (fuel : Nat) (src : List Nat) (n : PNode)
    (ind : Nat) (h : Hints) (st : FmtSt) (hkids : n.children = []) :
    (errorFormat (fuel + 1) src n ind h st).log =
      st.log ++ [([32], false),
                 (pySlice src n.startByte n.endByte, true),
                 ([32], false)] := by
  have hempty : n.children.isEmpty = true := by rw [hkids]; rfl
  unfold errorFormat
  rw [if_pos hempty]
  unfold fmtWriteSp
  rw [fmtWrite_log, fmtWrite_log, fmtWrite_log]
  simp [scriptRange]

/-- C6 (amended): (i) format terminates — past the explicit recursion
bound `fmtCost root` computed from the tree, the fuel parameter does
not affect `scriptFormat`'s output, so the interpreter completes the
whole recursion; and (ii) a childless ERROR node is emitted as exactly
three writes: one protective space, the node's byte range raw and
verbatim, and one protective space.  An ERROR node whose children have
children of their own need not preserve its byte range verbatim (see
the counterexample). -/
theorem c6_theorem (src : List Nat) (root n : PNode) (ind fuel : Nat)
    (h : Hints) (st : FmtSt) (enableLb : Bool)
    (hfuel : fmtCost root ≤ fuel) (hkids : n.children = []) :
    scriptFormat fuel src root enableLb
      = scriptFormat (fmtCost root) src root enableLb ∧
    (errorFormat (fuel + 1) src n ind h st).log =
      st.log ++ [([32], false),
                 (pySlice src n.startByte n.endByte, true),
                 ([32], false)] :=
  ⟨scriptFormat_stable src root enableLb fuel hfuel,
   errorFormat_childless_log fuel src n ind h st hkids⟩

/-- A childless ERROR node for the C6 witness, over bytes `[0, 2)`. -/
def c6wnode : PNode :=
  .mk { type := "ERROR", isNamed := true, hasError := true
        startByte := 0, endByte := 2 } [] [] [] [] [] []

/-- C6, witness: the childless ERROR node over `"ab"` has recursion
bound 8, so fuel 16 is ample and the output is fuel-independent, and
the error formatter's log is exactly space, raw `"ab"`, space. -/
theorem c6_witness :
    (fmtCost c6wnode ≤ 16 ∧ c6wnode.children = []) ∧
    (scriptFormat 16 [97, 98] c6wnode true
       = scriptFormat (fmtCost c6wnode) [97, 98] c6wnode true ∧
     (errorFormat (16 + 1) [97, 98] c6wnode 0 Hints.none
         { stream := initStream true, log := [] }).log =
       [] ++ [([32], false),
              (pySlice [97, 98] c6wnode.startByte c6wnode.endByte, true),
              ([32], false)]) :=
  ⟨⟨by decide, rfl⟩,
   c6_theorem [97, 98] c6wnode c6wnode 0 16 Hints.none
     { stream := initStream true, log := [] } true (by decide) rfl⟩

/-! ## Claim C7, counterexample material -/

/-- The C7 counterexample source, `"a\n\n\n\nb"`. -/
def c7src : List Nat := [97, 10, 10, 10, 10, 98]

/-- A childless ERROR root over the whole C7 source. -/
def c7tree : PNode :=
  .mk { type := "ERROR", isNamed := true, hasError := true
        startByte := 0, endByte := 6 } [] [] [] [] [] []

/-- C7, counterexample.  The claim states that no more than one blank
line ever appears consecutively in the output of format, for every
input.  A childless ERROR node is preserved raw and verbatim, so
formatting `"a\n\n\n\nb"` under an ERROR root emits the three blank
lines untouched: the output contains three consecutive newline
bytes. -/
theorem c7_counterexample :
    scriptFormat 8 c7src c7tree true = [97, 10, 10, 10, 10, 98, 10] ∧
    containsSub [10, 10, 10] (scriptFormat 8 c7src c7tree true) = true :=
  ⟨by decide, by decide⟩

/-! ## Claim C8: trailing whitespace and final newline -/

/-- The C8 counterexample source, `"x \ny"`. -/
def c8src : List Nat := [120, 32, 10, 121]

/-- A childless ERROR root over the whole C8 source. -/
def c8tree : PNode :=
  .mk { type := "ERROR", isNamed := true, hasError := true
        startByte := 0, endByte := 4 } [] [] [] [] [] []

/-- C8, counterexample.  The claim states that no line of the output of
format contains trailing spaces or tabs.  A childless ERROR node is
written raw, and `OutputStream._write` right-strips only the end of the
joined buffer — interior line ends of a raw chunk keep their trailing
whitespace.  Formatting `"x \ny"` under an ERROR root yields
`"x \ny\n"`, whose first line ends in a space. -/
theorem c8_counterexample :
    scriptFormat 8 c8src c8tree true = [120, 32, 10, 121, 10] ∧
    containsSub [32, 10] (scriptFormat 8 c8src c8tree true) = true :=
  ⟨by decide, by decide⟩

/-! ### The buffered-write invariant

For writes that are not raw, the stream only ever commits chunks of the
form `rstripBytes y ++ [10]`, so the sink never holds a space or tab
directly before a newline and always ends at a newline.  The raw path
commits arbitrary bytes — the counterexample above exploits it. -/

/-- No trailing whitespace before any line end: no space or tab byte is
immediately followed by a newline byte. -/
def noTrailWs : List Nat → Bool
  | a :: b :: rest => !((a == 32 || a == 9) && b == 10) && noTrailWs (b :: rest)
  | _ => true

theorem noTrailWs_cons_cons (a b : Nat) (rest : List Nat) :
    noTrailWs (a :: b :: rest) =
      (!((a == 32 || a == 9) && b == 10) && noTrailWs (b :: rest)) := rfl

/-- A byte that is not whitespace is neither a space nor a tab. -/
theorem not_space_beq (a : Nat) (ha : isSpaceByte a = false) :
    (a == 32 || a == 9) = false := by
  simp only [isSpaceByte, Bool.or_eq_false_iff] at ha
  rw [Bool.or_eq_false_iff]
  exact ⟨ha.2, ha.1.1.1.1.1⟩

/-- A newline-free list, right-stripped and newline-terminated, has no
trailing whitespace before its line end. -/
theorem noTrailWs_snoc10 (w : List Nat) (h10 : ∀ x ∈ w, x ≠ 10)
    (hlast : ∀ a, w.getLast? = some a → isSpaceByte a = false) :
    noTrailWs (w ++ [10]) = true := by
  induction w with
  | nil => rfl
  | cons a t ih =>
    cases t with
    | nil =>
      have ha := not_space_beq a (hlast a rfl)
      show noTrailWs (a :: 10 :: []) = true
      rw [noTrailWs_cons_cons, ha]
      rfl
    | cons b r =>
      show noTrailWs (a :: b :: (r ++ [10])) = true
      rw [noTrailWs_cons_cons]
      have hb : (b == 10) = false := by
        have := h10 b (by simp)
        simpa using this
      rw [hb]
      simp only [Bool.and_false, Bool.not_false, Bool.true_and]
      exact ih (fun x hx => h10 x (by simp [hx]))
        (fun a' ha' => hlast a' (by rw [List.getLast?_cons_cons]; exact ha'))

/-- Appending after a newline cannot create trailing whitespace. -/
theorem noTrailWs_append (a b : List Nat) (ha : noTrailWs a = true)
    (hb : noTrailWs b = true) (hj : a = [] ∨ a.getLast? = some 10) :
    noTrailWs (a ++ b) = true := by
  induction a with
  | nil => exact hb
  | cons x t ih =>
    cases t with
    | nil =>
      have hx : x = 10 := by
        rcases hj with h | h
        · exact absurd h (by simp)
        · simpa using h
      subst hx
      cases b with
      | nil => rfl
      | cons y s =>
        show noTrailWs (10 :: y :: s) = true
        rw [noTrailWs_cons_cons]
        simpa using hb
    | cons y s =>
      show noTrailWs (x :: y :: (s ++ b)) = true
      rw [noTrailWs_cons_cons]
      rw [noTrailWs_cons_cons] at ha
      simp only [Bool.and_eq_true] at ha
      obtain ⟨h1, h2⟩ := ha
      rw [h1]
      simp only [Bool.true_and]
      refine ih h2 ?_
      rcases hj with h | h
      · exact absurd h (by simp)
      · right
        rw [← List.getLast?_cons_cons]
        exact h

/-- Members of a whitespace-stripped tail come from the original. -/
theorem dropWhile_space_mem (l : List Nat) (x : Nat)
    (hx : x ∈ l.dropWhile isSpaceByte) : x ∈ l :=
  (List.dropWhile_sublist _).subset hx

/-- Right-stripping keeps only original bytes. -/
theorem rstrip_mem (y : List Nat) (x : Nat) (hx : x ∈ rstripBytes y) :
    x ∈ y := by
  unfold rstripBytes at hx
  rw [List.mem_reverse] at hx
  have := dropWhile_space_mem y.reverse x hx
  rwa [List.mem_reverse] at this

/-- The head surviving `dropWhile isSpaceByte` is not whitespace. -/
theorem head_dropWhile_space (l : List Nat) (a : Nat)
    (h : (l.dropWhile isSpaceByte).head? = some a) : isSpaceByte a = false := by
  induction l with
  | nil => simp at h
  | cons b t ih =>
    rw [List.dropWhile_cons] at h
    by_cases hb : isSpaceByte b = true
    · rw [if_pos hb] at h
      exact ih h
    · rw [if_neg hb] at h
      have hba : b = a := by simpa using h
      subst hba
      simpa using hb

/-- The last byte of a right-stripped list is not whitespace. -/
theorem rstrip_last (y : List Nat) :
    ∀ a, (rstripBytes y).getLast? = some a → isSpaceByte a = false := by
  intro a ha
  unfold rstripBytes at ha
  rw [List.getLast?_reverse] at ha
  exact head_dropWhile_space y.reverse a ha

/-- Right-stripping ignores a trailing whitespace byte. -/
theorem rstrip_snoc_ws (l : List Nat) (a : Nat) (ha : isSpaceByte a = true) :
    rstripBytes (l ++ [a]) = rstripBytes l := by
  unfold rstripBytes
  rw [List.reverse_append]
  simp only [List.reverse_cons, List.reverse_nil, List.nil_append,
    List.singleton_append]
  rw [List.dropWhile_cons, if_pos ha]

/-- The chunk `OutputStream._write` commits for a newline-free buffer
has no trailing whitespace before its line end. -/
theorem chunk_noTrailWs (y : List Nat) (h10 : ∀ x ∈ y, x ≠ 10) :
    noTrailWs (rstripBytes y ++ [10]) = true :=
  noTrailWs_snoc10 (rstripBytes y)
    (fun x hx => h10 x (rstrip_mem y x hx))
    (rstrip_last y)

/-- A list whose last element is known decomposes into its front and
that element. -/
theorem eq_dropLast_snoc_of_getLast (l : List Nat) (a : Nat)
    (h : l.getLast? = some a) : l = l.dropLast ++ [a] := by
  have hne : l ≠ [] := by
    intro he
    rw [he] at h
    simp at h
  rw [List.getLast?_eq_getLast l hne] at h
  injection h with h
  rw [← h]
  exact (List.dropLast_concat_getLast hne).symm

/-- Every member of a list is in its front or is its last element. -/
theorem mem_dropLast_or_getLast (l : List Nat) (x : Nat) (hx : x ∈ l) :
    x ∈ l.dropLast ∨ l.getLast? = some x := by
  induction l with
  | nil => simp at hx
  | cons a t ih =>
    cases t with
    | nil =>
      right
      have : x = a := by simpa using hx
      simp [this]
    | cons b r =>
      rcases List.mem_cons.mp hx with hxa | hx'
      · left
        subst hxa
        exact List.mem_cons_self x ((b :: r).dropLast)
      · rcases ih hx' with h | h
        · left
          exact List.mem_cons_of_mem a h
        · right
          rw [List.getLast?_cons_cons]
          exact h

/-- The sink invariant of buffered writing: no trailing whitespace in
the committed output, all committed content ends at a newline, and the
write buffer holds no newline byte. -/
def SinkInv (st : StreamSt) : Prop :=
  noTrailWs st.out = true ∧
  (st.out = [] ∨ st.out.getLast? = some 10) ∧
  (∀ x ∈ st.writebuffer.flatten, x ≠ 10)

/-- `OutputStream._write` preserves the sink invariant for data holding
a newline only in final position. -/
theorem sinkWrite_inv (st : StreamSt) (d : List Nat) (hinv : SinkInv st)
    (hd : ∀ x ∈ d.dropLast, x ≠ 10) : SinkInv (sinkWrite st d) := by
  obtain ⟨hout, hend, hwb⟩ := hinv
  unfold sinkWrite
  dsimp only
  by_cases hnl : endsWithNl d = true
  · rw [if_pos hnl]
    have hde : d = d.dropLast ++ [10] :=
      eq_dropLast_snoc_of_getLast d 10 (by simpa [endsWithNl, nlByte] using hnl)
    have hflat : (st.writebuffer ++ [d]).flatten
        = (st.writebuffer.flatten ++ d.dropLast) ++ [10] := by
      rw [List.flatten_append]
      simp only [List.flatten_cons, List.flatten_nil, List.append_nil]
      conv_lhs => rw [hde]
      rw [List.append_assoc]
    have hrs : rstripBytes ((st.writebuffer.flatten ++ d.dropLast) ++ [10])
        = rstripBytes (st.writebuffer.flatten ++ d.dropLast) :=
      rstrip_snoc_ws _ 10 (by decide)
    have hgood : ∀ x ∈ st.writebuffer.flatten ++ d.dropLast, x ≠ 10 := by
      intro x hx
      rcases List.mem_append.mp hx with h | h
      · exact hwb x h
      · exact hd x h
    refine ⟨?_, ?_, ?_⟩
    · rw [hflat, hrs, List.append_assoc]
      exact noTrailWs_append st.out _ hout (chunk_noTrailWs _ hgood) hend
    · right
      show ((st.out ++ rstripBytes ((st.writebuffer ++ [d]).flatten))
        ++ [nlByte]).getLast? = some 10
      exact List.getLast?_concat _
    · intro x hx
      simp at hx
  · rw [if_neg hnl]
    refine ⟨hout, hend, ?_⟩
    intro x hx
    rw [List.flatten_append] at hx
    simp only [List.flatten_cons, List.flatten_nil, List.append_nil] at hx
    rcases List.mem_append.mp hx with h | h
    · exact hwb x h
    · rcases mem_dropLast_or_getLast d x h with h' | h'
      · exact hd x h'
      · intro hx10
        subst hx10
        exact hnl (by simp [endsWithNl, nlByte, h'])

/-- All fragments of a list hold newline bytes only in final
position. -/
def GoodFrags (fs : List Frag) : Prop :=
  ∀ o ∈ fs, ∀ x ∈ o.data.dropLast, x ≠ 10

/-- Writing a list of good fragments to the sink preserves the sink
invariant. -/
theorem fold_sinkWrite_inv (fs : List Frag) :
    ∀ (st : StreamSt), SinkInv st → GoodFrags fs →
    SinkInv (fs.foldl (fun t o => sinkWrite t o.data) st) := by
  induction fs with
  | nil =>
    intro st h _
    exact h
  | cons o rest ih =>
    intro st h hg
    rw [List.foldl_cons]
    exact ih _ (sinkWrite_inv st o.data h (hg o (by simp)))
      (fun o' ho' => hg o' (by simp [ho']))

/-- The flush-loop invariant: the stream's sink invariant plus good
pending fragments. -/
def FlushInv (s : FlushSt) : Prop :=
  SinkInv s.stream ∧ GoodFrags s.tbd

/-- `flush_tbd` preserves the flush invariant and empties the batch. -/
theorem flushTbd_inv (s : FlushSt) (h : FlushInv s) : FlushInv (flushTbd s) := by
  refine ⟨fold_sinkWrite_inv s.tbd s.stream h.1 h.2, ?_⟩
  intro o ho
  exact absurd ho (List.not_mem_nil o)

/-- Dropping leading whitespace fragments keeps a sub-collection. -/
theorem dropLeadingWs_subset (fs : List Frag) : ∀ (n : Int) (o : Frag),
    o ∈ (dropLeadingWs fs n).1 → o ∈ fs := by
  induction fs with
  | nil =>
    intro n o ho
    simp [dropLeadingWs] at ho
  | cons a rest ih =>
    intro n o ho
    rw [dropLeadingWs] at ho
    by_cases ha : hasInk a.data = true
    · rw [if_pos ha] at ho
      exact ho
    · rw [if_neg ha] at ho
      exact List.mem_cons_of_mem a (ih _ o ho)

/-- Newline-free replicated bytes are good data for the sink. -/
theorem good_replicate (k b : Nat) (hb : b ≠ 10) :
    ∀ x ∈ (List.replicate k b).dropLast, x ≠ 10 := by
  intro x hx
  have hx' : x ∈ List.replicate k b := (List.dropLast_sublist _).subset hx
  rw [List.eq_of_mem_replicate hx']
  exact hb

/-- `write_linebreak` preserves the flush invariant: it writes one
newline, tabs and spaces, and drops whitespace fragments from the
batch. -/
theorem writeLinebreak_inv (s : FlushSt) (h : FlushInv s) :
    FlushInv (writeLinebreak s) := by
  obtain ⟨hs, hg⟩ := h
  unfold writeLinebreak
  dsimp only
  refine ⟨?_, ?_⟩
  · have h1 := sinkWrite_inv s.stream [nlByte] hs (by simp)
    have h2 := sinkWrite_inv _
      (List.replicate (sinkWrite s.stream [nlByte]).tabIndent 9) h1
      (good_replicate _ 9 (by decide))
    exact sinkWrite_inv _ (List.replicate SPACE_INDENT 32) h2
      (good_replicate _ 32 (by decide))
  · intro o ho
    exact hg o (dropLeadingWs_subset s.tbd s.tbdLen o ho)

/-- One step of the `_flush_line` fragment loop preserves the flush
invariant when the incoming fragment is good. -/
theorem flushFrag_inv (col lineItems : Nat) (s : FlushSt) (o : Frag)
    (h : FlushInv s) (ho : ∀ x ∈ o.data.dropLast, x ≠ 10) :
    FlushInv (flushFrag col lineItems s o) := by
  have hg' : GoodFrags (s.tbd ++ [o]) := by
    intro o' ho'
    rcases List.mem_append.mp ho' with hm | hm
    · exact h.2 o' hm
    · intro x hx
      have hoe : o' = o := by simpa using hm
      rw [hoe] at hx
      exact ho x hx
  unfold flushFrag
  dsimp only
  split
  · exact ⟨h.1, hg'⟩
  · split
    · exact flushTbd_inv _ (writeLinebreak_inv _ ⟨h.1, hg'⟩)
    · exact ⟨h.1, hg'⟩
    · exact flushTbd_inv _ (writeLinebreak_inv _ ⟨h.1, hg'⟩)
    · exact flushTbd_inv _ ⟨h.1, hg'⟩

/-- The whole fragment loop preserves the flush invariant. -/
theorem fold_flushFrag_inv (lb : List Frag) (col lineItems : Nat) :
    ∀ (s : FlushSt), FlushInv s → GoodFrags lb →
    FlushInv (lb.foldl (flushFrag col lineItems) s) := by
  induction lb with
  | nil =>
    intro s h _
    exact h
  | cons o rest ih =>
    intro s h hg
    rw [List.foldl_cons]
    exact ih _ (flushFrag_inv col lineItems s o h (hg o (by simp)))
      (fun o' ho' => hg o' (by simp [ho']))

/-- The reverse `NO_LB_BEFORE` pass only touches hints, not data. -/
theorem nlbMark_data (l : List Frag) : ∀ (b : Bool),
    (nlbMark l b).map Frag.data = l.map Frag.data := by
  induction l with
  | nil =>
    intro b
    rfl
  | cons o rest ih =>
    intro b
    rw [nlbMark]
    dsimp only
    rw [List.map_cons, List.map_cons, ih]
    congr 1
    split <;> rfl

/-- The full reverse pass preserves the fragment data. -/
theorem revPass_data (lb : List Frag) :
    (revPass lb).map Frag.data = lb.map Frag.data := by
  unfold revPass
  rw [List.map_reverse, nlbMark_data, List.map_reverse, List.reverse_reverse]

/-- Fragment goodness transfers along equal data lists. -/
theorem goodFrags_of_map_data (a b : List Frag)
    (hmap : a.map Frag.data = b.map Frag.data) (hb : GoodFrags b) :
    GoodFrags a := by
  intro o ho x hx
  have hmem : o.data ∈ a.map Frag.data := List.mem_map_of_mem Frag.data ho
  rw [hmap] at hmem
  rcases List.mem_map.mp hmem with ⟨o', ho', he⟩
  exact hb o' ho' x (by rw [he]; exact hx)

/-- The whole-stream invariant: sink invariant plus good line
buffer. -/
def StreamInv (st : StreamSt) : Prop :=
  SinkInv st ∧ GoodFrags st.linebuffer

/-- `OutputStream._flush_line` preserves the stream invariant. -/
theorem flushLine_inv (st : StreamSt) (h : StreamInv st) :
    StreamInv (flushLine st) := by
  obtain ⟨hs, hg⟩ := h
  unfold flushLine
  dsimp only
  split
  · refine ⟨fold_sinkWrite_inv st.linebuffer st hs hg, ?_⟩
    intro o ho
    exact absurd ho (List.not_mem_nil o)
  · refine ⟨?_, ?_⟩
    · have h1 : FlushInv { stream := st, colFlushed := 0, tbd := [], tbdLen := 0, usingBreakHints := false } :=
        ⟨hs, fun o ho => absurd ho (List.not_mem_nil o)⟩
      have hrev : GoodFrags (revPass st.linebuffer) :=
        goodFrags_of_map_data _ _ (revPass_data st.linebuffer) hg
      have h2 := fold_flushFrag_inv (revPass st.linebuffer) st.col
        ((st.linebuffer.filter (fun o => hasInk o.data)).length) _ h1 hrev
      exact (flushTbd_inv _ h2).1
    · intro o ho
      exact absurd ho (List.not_mem_nil o)

/-- Every chunk `splitlines(keepends=True)` produces holds a newline
only in final position. -/
theorem splitGo_good : ∀ (l acc : List Nat), (∀ x ∈ acc, x ≠ 10) →
    ∀ c ∈ splitlinesKeepGo l acc, ∀ x ∈ c.dropLast, x ≠ 10 := by
  intro l acc
  induction l, acc using splitlinesKeepGo.induct with
  | case1 acc hacc =>
    intro _ c hc
    rw [splitlinesKeepGo, if_pos hacc] at hc
    simp at hc
  | case2 acc hacc =>
    intro hg c hc
    rw [splitlinesKeepGo, if_neg hacc] at hc
    have hce : c = acc := by simpa using hc
    subst hce
    intro x hx
    exact hg x ((List.dropLast_sublist _).subset hx)
  | case3 rest acc ih =>
    intro hg c hc
    rw [show splitlinesKeepGo (13 :: 10 :: rest) acc
        = (acc ++ [13, 10]) :: splitlinesKeepGo rest [] from rfl] at hc
    rcases List.mem_cons.mp hc with hce | hm
    · subst hce
      intro x hx
      have hdl : (acc ++ [13, 10]).dropLast = acc ++ [13] := by
        rw [show acc ++ [13, 10] = (acc ++ [13]) ++ [10] by simp]
        exact List.dropLast_concat
      rw [hdl] at hx
      rcases List.mem_append.mp hx with h | h
      · exact hg x h
      · have hx13 : x = 13 := by simpa using h
        subst hx13
        decide
    · exact ih (by simp) c hm
  | case4 rest acc hne ih =>
    intro hg c hc
    rw [splitlinesKeepGo.eq_3 acc rest hne] at hc
    rcases List.mem_cons.mp hc with hce | hm
    · subst hce
      intro x hx
      rw [List.dropLast_concat] at hx
      exact hg x hx
    · exact ih (by simp) c hm
  | case5 rest acc ih =>
    intro hg c hc
    rw [show splitlinesKeepGo (10 :: rest) acc
        = (acc ++ [10]) :: splitlinesKeepGo rest [] from rfl] at hc
    rcases List.mem_cons.mp hc with hce | hm
    · subst hce
      intro x hx
      rw [List.dropLast_concat] at hx
      exact hg x hx
    · exact ih (by simp) c hm
  | case6 b rest acc h1 h13 h10 ih =>
    intro hg c hc
    rw [splitlinesKeepGo.eq_5 acc b rest h1 h13 h10] at hc
    refine ih ?_ c hc
    intro x hx
    rcases List.mem_append.mp hx with h | h
    · exact hg x h
    · have hxb : x = b := by simpa using h
      subst hxb
      intro hx10
      exact h10 hx10

/-- The chunks of a buffered write are good data. -/
theorem splitChunks_good (d : List Nat) :
    ∀ c ∈ splitlinesKeep d, ∀ x ∈ c.dropLast, x ≠ 10 := by
  unfold splitlinesKeep
  exact splitGo_good d [] (by simp)

/-- The chunk loop of a buffered `OutputStream.write` preserves the
stream invariant. -/
theorem fold_write_inv (h : Hints) (cs : List (List Nat)) :
    ∀ (st : StreamSt), StreamInv st → (∀ c ∈ cs, ∀ x ∈ c.dropLast, x ≠ 10) →
    StreamInv (cs.foldl
      (fun t chunk =>
        let t := { t with col := t.col + chunk.length
                          linebuffer := t.linebuffer ++ [⟨chunk, h⟩] }
        if endsWithNl chunk then flushLine t else t) st) := by
  induction cs with
  | nil =>
    intro st hst _
    exact hst
  | cons c rest ih =>
    intro st hst hgood
    rw [List.foldl_cons]
    refine ih _ ?_ (fun c' hc' => hgood c' (by simp [hc']))
    dsimp only
    have hg' : GoodFrags (st.linebuffer ++ [⟨c, h⟩]) := by
      intro o ho
      rcases List.mem_append.mp ho with hm | hm
      · exact hst.2 o hm
      · intro x hx
        have hoe : o = ⟨c, h⟩ := by simpa using hm
        rw [hoe] at hx
        exact hgood c (by simp) x hx
    split
    · exact flushLine_inv _ ⟨hst.1, hg'⟩
    · exact ⟨hst.1, hg'⟩

/-- A buffered (non-raw) `OutputStream.write` preserves the stream
invariant, for arbitrary data. -/
theorem streamWrite_inv (st : StreamSt) (data : List Nat) (h : Hints)
    (hst : StreamInv st) : StreamInv (streamWrite st data h false) := by
  unfold streamWrite
  rw [if_neg (by simp)]
  exact fold_write_inv h (splitlinesKeep data) st hst (splitChunks_good data)

/-- `write_tab_indent` preserves the stream invariant. -/
theorem streamWriteTabIndent_inv (st : StreamSt) (ind : Nat) (h : Hints)
    (hst : StreamInv st) : StreamInv (streamWriteTabIndent st ind h) := by
  unfold streamWriteTabIndent
  split
  · exact streamWrite_inv _ _ _ ⟨hst.1, hst.2⟩
  · exact hst

/-- `write_space_align` preserves the stream invariant. -/
theorem streamWriteSpaceAlign_inv (st : StreamSt) (h : Hints)
    (hst : StreamInv st) : StreamInv (streamWriteSpaceAlign st h) := by
  unfold streamWriteSpaceAlign
  split
  · exact streamWrite_inv _ _ _ hst
  · exact hst

/-- `sinkWrite` never touches the line buffer. -/
theorem sinkWrite_linebuffer (st : StreamSt) (d : List Nat) :
    (sinkWrite st d).linebuffer = st.linebuffer := by
  unfold sinkWrite
  dsimp only
  split <;> rfl

/-- `_flush_writes` preserves the stream invariant. -/
theorem flushWrites_inv (st : StreamSt) (h : StreamInv st) :
    StreamInv (flushWrites st) := by
  unfold flushWrites
  split
  · refine ⟨sinkWrite_inv st [nlByte] h.1 (by simp), ?_⟩
    rw [sinkWrite_linebuffer]
    exact h.2
  · exact h

/-- The write-level operations formatters perform on an
`OutputStream`. -/
inductive StreamOp where
  | write (data : List Nat) (h : Hints) (raw : Bool)
  | writeTabIndent (ind : Nat) (h : Hints)
  | writeSpaceAlign (h : Hints)
  deriving Repr

/-- Whether an operation is a raw write. -/
def StreamOp.isRaw : StreamOp → Bool
  | .write _ _ r => r
  | _ => false

/-- Apply one operation to the stream. -/
def runOp (st : StreamSt) : StreamOp → StreamSt
  | .write d h r => streamWrite st d h r
  | .writeTabIndent i h => streamWriteTabIndent st i h
  | .writeSpaceAlign h => streamWriteSpaceAlign st h

/-- Run a write session against a fresh stream and close it, as
`Script.format`'s `with` block does. -/
def runOps (enableLb : Bool) (ops : List StreamOp) : StreamSt :=
  closeStream (ops.foldl runOp (initStream enableLb))

/-- A non-raw operation preserves the stream invariant. -/
theorem runOp_inv (st : StreamSt) (op : StreamOp) (hop : op.isRaw = false)
    (h : StreamInv st) : StreamInv (runOp st op) := by
  cases op with
  | write d hh r =>
    have hr : r = false := hop
    subst hr
    exact streamWrite_inv st d hh h
  | writeTabIndent i hh => exact streamWriteTabIndent_inv st i hh h
  | writeSpaceAlign hh => exact streamWriteSpaceAlign_inv st hh h

/-- A sequence of non-raw operations preserves the stream invariant. -/
theorem foldOps_inv (ops : List StreamOp) :
    ∀ (st : StreamSt), StreamInv st → (∀ op ∈ ops, op.isRaw = false) →
    StreamInv (ops.foldl runOp st) := by
  induction ops with
  | nil =>
    intro st h _
    exact h
  | cons op rest ih =>
    intro st h hr
    rw [List.foldl_cons]
    exact ih _ (runOp_inv st op (hr op (by simp)) h)
      (fun o ho => hr o (by simp [ho]))

/-- A fresh stream satisfies the invariant. -/
theorem initStream_inv (b : Bool) : StreamInv (initStream b) := by
  refine ⟨⟨rfl, Or.inl rfl, ?_⟩, ?_⟩
  · intro x hx
    exact absurd hx (List.not_mem_nil x)
  · intro o ho
    exact absurd ho (List.not_mem_nil o)

/-- C8 (amended): in any write session made only of buffered (non-raw)
writes, the closed stream's output has no space or tab immediately
before any newline, and when nonempty it ends with a newline.  Raw
writes — used by the `ErrorFormatter` — break the first property, as
the counterexample shows. -/
theorem c8_theorem (enableLb : Bool) (ops : List StreamOp)
    (hraw : ∀ op ∈ ops, op.isRaw = false) :
    noTrailWs (runOps enableLb ops).out = true ∧
    ((runOps enableLb ops).out = [] ∨
     (runOps enableLb ops).out.getLast? = some 10) := by
  have h := foldOps_inv ops (initStream enableLb) (initStream_inv enableLb) hraw
  have h2 := flushWrites_inv _ (flushLine_inv _ h)
  exact ⟨h2.1.1, h2.1.2.1⟩

/-- The concrete C8 witness session: an indent, a fragment with
trailing spaces, and a newline-led continuation. -/
def c8ops : List StreamOp :=
  [.writeTabIndent 1 Hints.none,
   .write [97, 32, 32] Hints.none false,
   .write [10, 98] Hints.none false]

/-- C8, witness: the session above is raw-free, so its output carries
no trailing whitespace and ends with a newline. -/
theorem c8_witness :
    (∀ op ∈ c8ops, op.isRaw = false) ∧
    (noTrailWs (runOps true c8ops).out = true ∧
     ((runOps true c8ops).out = [] ∨
      (runOps true c8ops).out.getLast? = some 10)) :=
  ⟨by decide, c8_theorem true c8ops (by decide)⟩

/-! ## Claim C10: the `parse()`-completed precondition

A `Script` holds its source and, once `parse()` completed, a tree root;
before that `self.root` is `None`.  Each guarded accessor begins with
`assert self.root is not None`; the embedding returns `none` when the
assertion fires and `some result` otherwise. -/

/-! A node count usable as recursion fuel for the formatter: every list
the formatter can descend into is counted. -/

mutual

def PNode.size : PNode → Nat
  | .mk _ cs ncs pcs xcs pes xes =>
    1 + PNode.sizeL cs + PNode.sizeL ncs + PNode.sizeL pcs
      + PNode.sizeL xcs + PNode.sizeL pes + PNode.sizeL xes

def PNode.sizeL : List PNode → Nat
  | [] => 0
  | c :: rest => PNode.size c + PNode.sizeL rest

end

/-- A `Script` instance: its source bytes and, after `parse()`, the
cloned tree root (`self.root`). -/
structure ScriptState where
  source : List Nat
  root : Option PNode

/-- `Script.has_error`: asserts on `self.root`, then scans the
traversal. -/
def scriptHasError (s : ScriptState) : Option Bool :=
  match s.root with
  | none => none
  | some r => some (hasErrorScript r)

/-- `Script.get_error`: asserts on `self.root`, then reports on the
first offending node. -/
def scriptGetError (s : ScriptState) :
    Option (Option String × Option Nat × Option String) :=
  match s.root with
  | none => none
  | some r => some (getError s.source r)

/-- `Script.traverse`: asserts on `self.root`, then yields the tree
traversal. -/
def scriptTraverse (s : ScriptState) : Option (List (PNode × Nat)) :=
  match s.root with
  | none => none
  | some r => some r.traverse

/-- `Script.__getitem__` with a slice key: asserts on `self.root`, then
indexes the source. -/
def scriptGetItem (s : ScriptState) (a b : Nat) : Option (List Nat) :=
  match s.root with
  | none => none
  | some _ => some (pySlice s.source a b)

/-- `Script.get_content`: asserts on `self.root`, then slices the
source with `None` bounds defaulting to the whole content. -/
def scriptGetContent (s : ScriptState) (a b : Option Nat) : Option (List Nat) :=
  match s.root with
  | none => none
  | some _ => some (pySlice s.source (a.getD 0) (b.getD s.source.length))

/-- `Script.format` to an in-memory sink: asserts on `self.root`, then
runs the root's formatter against a fresh stream. -/
def scriptFormatM (s : ScriptState) (enableLb : Bool) : Option (List Nat) :=
  match s.root with
  | none => none
  | some r => some (scriptFormat (PNode.size r) s.source r enableLb)

/-- The default path of `Script.write_tree`: it renders the nodes
delivered by `Script.traverse`, whose assertion guards it.  The node
stringifier is a parameter, as in the source. -/
def scriptWriteTree (s : ScriptState)
    (stringify : PNode → Nat → List Nat) : Option (List Nat) :=
  match s.root with
  | none => none
  | some r =>
    some ((r.traverse.map (fun p => stringify p.1 p.2 ++ [nlByte])).flatten)

/-- C10: each guarded `Script` accessor returns a value exactly when
`parse()` has completed (`self.root` is set); with no root each fails
its assertion instead of returning. -/
theorem c10_theorem (s : ScriptState) (a b : Nat) (oa ob : Option Nat)
    (enableLb : Bool) (strf : PNode → Nat → List Nat) :
    ((scriptHasError s).isSome ↔ s.root.isSome) ∧
    ((scriptGetError s).isSome ↔ s.root.isSome) ∧
    ((scriptTraverse s).isSome ↔ s.root.isSome) ∧
    ((scriptGetItem s a b).isSome ↔ s.root.isSome) ∧
    ((scriptGetContent s oa ob).isSome ↔ s.root.isSome) ∧
    ((scriptFormatM s enableLb).isSome ↔ s.root.isSome) ∧
    ((scriptWriteTree s strf).isSome ↔ s.root.isSome) := by
  cases hr : s.root <;>
    simp [scriptHasError, scriptGetError, scriptTraverse, scriptGetItem,
      scriptGetContent, scriptFormatM, scriptWriteTree, hr]

end Zeekscript
